import Mathlib

/-!
# File input of the traffic replayer (`input_file.go`)

A shallow embedding of `FileInput`: the file cursor `updateFile`, the consumer
side `Read`, and the producer loop `emit` with its framing and pacing.

Conventions of the embedding.

* A Go `string` / `[]byte` is a list of bytes, a byte is a natural number;
  strings are ordered bytewise (lexicographically), as Go orders them.
* `int64` values are integers, wrapped with `wrap64` where Go arithmetic wraps.
* The file system a call of `updateFile` sees is a `World`; the producer takes
  one world per call (`Nat → World`), since the match set may change.
* What the producer does is recorded as a list of `Event`s (`sleep`, `send`);
  the unbuffered channel `data` is that trace, read in order.
* `payloadSeparator`, `RequestPayload` and `payloadMeta` are declared outside
  this file of the repository: they are the fields of a `Format` parameter.
* `speedFactor` is a `float64`; the floating-point expression
  `int64(float64(d) / speedFactor)` is the field `scale` of `SpeedFactor`, and
  `SpeedFactor.ofFloat` fills it for a `Float64` value by `scaleFloat`, which
  rounds as IEEE 754 does (to nearest, ties to even, 53 significant bits).
-/

namespace GoReplay

/-! ## Data model -/

abbrev Byte := Nat

abbrev GoString := List Byte

/-- The bytes of an ASCII literal. -/
def ascii (s : String) : GoString := s.data.map Char.toNat

/-- The line terminator, the delimiter given to `ReadBytes`. -/
def newline : Byte := 10

/-- What a reader yields: the bytes left to read, and whether reading past them
reports an error other than `io.EOF`. -/
structure ByteStream where
  bytes : List Byte
  broken : Bool
deriving DecidableEq, Repr

/-- An open `*os.File`: its `Name()` and what it yields. -/
structure OsFile where
  name : GoString
  content : ByteStream
deriving DecidableEq, Repr

/-- The file system at one call of `updateFile`. `glob` is
`filepath.Glob(i.path)` (`none`: the pattern is malformed), `osOpen` is `os.Open`
(`none`: the open fails), `gzipNewReader` is `gzip.NewReader` followed by the
decompressed stream (`none`: the header is rejected). -/
structure World where
  glob : Option (List GoString)
  osOpen : GoString → Option ByteStream
  gzipNewReader : ByteStream → Option ByteStream

/-- The field `speedFactor`: whether it equals `1`, and the function
`d ↦ int64(float64(d) / speedFactor)`. -/
structure SpeedFactor where
  isOne : Bool
  scale : Int → Int

/-- The struct `FileInput` (the channel `data` is the event trace, the pattern
`path` is held by the `World`). -/
structure FileInput where
  currentFile : Option OsFile
  currentReader : Option ByteStream
  speedFactor : SpeedFactor

/-- The externally declared record format. -/
structure Format where
  payloadSeparator : GoString
  RequestPayload : Byte
  payloadMeta : List Byte → List (List Byte)

/-! ## `updateFile` -/

/-- How the `for idx, p := range matches` loop of `updateFile` ends. -/
inductive ScanResult where
  | done (cur : OsFile) (found : Bool) (opened : List GoString)
  | openFailed (opened : List GoString)
  | outOfRange (opened : List GoString)
deriving DecidableEq, Repr

/-- The loop `for idx, p := range matches` of `updateFile`, from index `idx` on
(`rest` is `matches[idx:]`). `cur` is `i.currentFile`, re-read at every
iteration; `opened` logs the paths handed to `os.Open`. -/
def scanMatches (w : World) (ms : List GoString) :
    List GoString → Nat → OsFile → Bool → List GoString → ScanResult
  | [], _, cur, found, opened => .done cur found opened
  | p :: rest, idx, cur, found, opened =>
    if p = cur.name ∧ idx ≠ ms.length - 1 then
      match ms[idx + 1]? with
      | none => .outOfRange opened
      | some nxt =>
        match w.osOpen nxt with
        | none => .openFailed (opened ++ [nxt])
        | some c => scanMatches w ms rest (idx + 1) ⟨nxt, c⟩ true (opened ++ [nxt])
    else scanMatches w ms rest (idx + 1) cur found opened

/-- What a call of `updateFile` comes to. -/
inductive UpdateResult where
  | ok (i : FileInput)
  | err (i : FileInput)
  | fatal
  | panic

/-- The result of `updateFile` and the paths it handed to `os.Open`, in order. -/
structure UpdateOut where
  result : UpdateResult
  opened : List GoString

/-- The tail of `updateFile`: wrap the current file in a reader, through gzip
when its name ends in `.gz` (`log.Fatal` when gzip rejects it). -/
def wrapReader (w : World) (i : FileInput) (f : OsFile) : UpdateResult :=
  if (ascii ".gz").isSuffixOf f.name then
    match w.gzipNewReader f.content with
    | none => .fatal
    | some r => .ok { i with currentFile := some f, currentReader := some r }
  else
    .ok { i with currentFile := some f, currentReader := some f.content }

/-- The method `updateFile`. `sort.Strings` is a sort by the bytewise order; its
result is the unique sorted arrangement, computed here by insertion. -/
def updateFile (w : World) (i : FileInput) : UpdateOut :=
  match w.glob with
  | none => ⟨.err i, []⟩
  | some globbed =>
    if globbed.length = 0 then ⟨.err i, []⟩
    else
      let ms := globbed.insertionSort (· ≤ ·)
      match i.currentFile with
      | none =>
        match ms[0]? with
        | none => ⟨.panic, []⟩
        | some m0 =>
          match w.osOpen m0 with
          | none => ⟨.err { i with currentFile := none }, [m0]⟩
          | some c => ⟨wrapReader w i ⟨m0, c⟩, [m0]⟩
      | some cur =>
        match scanMatches w ms ms 0 cur false [] with
        | .done cur1 found opened =>
          if !found then ⟨.err { i with currentFile := some cur1 }, opened⟩
          else ⟨wrapReader w i cur1, opened⟩
        | .openFailed opened => ⟨.err { i with currentFile := none }, opened⟩
        | .outOfRange opened => ⟨.panic, opened⟩

/-- The calls of `updateFile` one source makes: `NewFileInput` makes the first,
`emit` one at each end of input, and neither calls again after a call that did
not return `nil`. Returns the paths handed to `os.Open`, in order. -/
def updateCalls : List World → FileInput → List GoString
  | [], _ => []
  | w :: ws, i =>
    (updateFile w i).opened ++
      (match (updateFile w i).result with
       | .ok i1 => updateCalls ws i1
       | _ => [])

/-! ## `Read` -/

/-- The builtin `copy(dst, src)`: the destination afterwards and the number of
bytes copied. -/
def goCopy (dst src : List Byte) : List Byte × Nat :=
  (src.take (min dst.length src.length) ++ dst.drop (min dst.length src.length),
   min dst.length src.length)

/-- The method `Read`, given the record `buf` received from the channel: the
destination afterwards, the returned integer, and whether the error is `nil`. -/
def Read (buf data : List Byte) : List Byte × Int × Bool :=
  ((goCopy data buf).1, (buf.length : Int), true)

/-! ## `strconv.ParseInt(s, 10, 64)` -/

/-- Wrap an integer to the `int64` range, as Go arithmetic does. -/
def wrap64 (x : Int) : Int := (x + 2 ^ 63) % 2 ^ 64 - 2 ^ 63

def isDigit (b : Byte) : Bool := decide (48 ≤ b) && decide (b ≤ 57)

/-- The value of a string of decimal digits. -/
def digitsValue (s : List Byte) : Nat := s.foldl (fun acc b => acc * 10 + (b - 48)) 0

/-- The digits of `ParseUint` in base 10: `none` is `ErrSyntax` (no digit, or a
byte that is not a digit). -/
def parseDigits (s : List Byte) : Option Nat :=
  if s = [] ∨ ¬ (s.all isDigit = true) then none else some (digitsValue s)

/-- The library function `strconv.ParseInt(s, 10, 64)`: the returned value and
whether the returned error is non-nil. A malformed numeral gives `0`, a numeral
out of range gives the nearest bound of `int64`. -/
def ParseInt (s : List Byte) : Int × Bool :=
  if s = [] then (0, true)
  else
    let neg : Bool := s.head? = some 45
    let body := if s.head? = some 43 ∨ s.head? = some 45 then s.tail else s
    match parseDigits body with
    | none => (0, true)
    | some un =>
      if neg = false ∧ un ≥ 2 ^ 63 then (2 ^ 63 - 1, true)
      else if neg = true ∧ un > 2 ^ 63 then (-(2 ^ 63), true)
      else (if neg then -(un : Int) else (un : Int), false)

/-! ## `emit` -/

/-- What the producer does that is visible outside it. -/
inductive Event where
  | sleep (d : Int)
  | send (rec : List Byte)
deriving DecidableEq, Repr

/-- The records of a trace, in order. -/
def sends : List Event → List (List Byte)
  | [] => []
  | .send r :: es => r :: sends es
  | .sleep _ :: es => sends es

/-- The error of `ReadBytes`. -/
inductive ReadErr where
  | eof
  | other
deriving DecidableEq, Repr

/-- Cut a byte list after the first `delim`: the line, delimiter included, and
the rest; `none` when there is no `delim`. -/
def cutLine (delim : Byte) : List Byte → Option (List Byte × List Byte)
  | [] => none
  | b :: bs =>
    if b = delim then some ([b], bs)
    else
      match cutLine delim bs with
      | none => none
      | some (l, r) => some (b :: l, r)

/-- The method `(*bufio.Reader).ReadBytes(delim)`: the bytes up to and including
the first delimiter, or all that is left together with the error met. -/
def readBytes (delim : Byte) (r : ByteStream) : List Byte × Option ReadErr × ByteStream :=
  match cutLine delim r.bytes with
  | some (l, rest) => (l, none, { r with bytes := rest })
  | none => (r.bytes, some (if r.broken then .other else .eof), { r with bytes := [] })

/-- How the producer ends. -/
inductive Halt where
  | finished
  | fatal
  | negativeLen
  | indexOutOfRange
  | sliceOutOfRange
  | nilReader
  | outOfFuel
deriving DecidableEq, Repr

/-- The producer between two iterations of its loop: the receiver, the locals
`lastTime` and `buffer`, and the number of calls of `updateFile` made so far. -/
structure EmitState where
  i : FileInput
  lastTime : Int
  buffer : List Byte
  rotations : Nat

/-- One iteration of the loop of `emit`. -/
inductive Step where
  | next (s : EmitState) (evs : List Event)
  | halt (h : Halt) (evs : List Event)

/-- The condition `len(meta) > 2 && meta[0][0] == RequestPayload`; `none` when
`meta[0][0]` is out of range. -/
def isRequest (fmt : Format) (fields : List (List Byte)) : Option Bool :=
  if fields.length > 2 then
    match fields[0]? with
    | none => none
    | some f0 =>
      match f0[0]? with
      | none => none
      | some tag => some (decide (tag = fmt.RequestPayload))
  else some false

/-- The body of `if lastTime != 0`: the duration handed to `time.Sleep`. -/
def timeDiff (sf : SpeedFactor) (lastTime ts : Int) : Int :=
  if sf.isOne then wrap64 (ts - lastTime) else sf.scale (wrap64 (ts - lastTime))

/-- The pacing block of `emit` for a request record: the events and the new
`lastTime`. -/
def pace (sf : SpeedFactor) (lastTime : Int) (fields : List (List Byte)) : List Event × Int :=
  let ts := (ParseInt (fields.getD 2 [])).1
  (if lastTime ≠ 0 then [Event.sleep (timeDiff sf lastTime ts)] else [], ts)

/-- The branch of `emit` taken when the line read is the sentinel line. -/
def frame (fmt : Format) (st : EmitState) (i1 : FileInput) : Step :=
  let asBytes := st.buffer
  let fields := fmt.payloadMeta asBytes
  match isRequest fmt fields with
  | none => .halt .indexOutOfRange []
  | some req =>
    let paced : List Event × Int :=
      if req then pace i1.speedFactor st.lastTime fields else ([], st.lastTime)
    if (asBytes.length : Int) - 1 < 0 then .halt .negativeLen paced.1
    else
      let newBuf := (goCopy (List.replicate (asBytes.length - 1) 0) asBytes).1
      .next { i := i1, lastTime := paced.2, buffer := [], rotations := st.rotations }
        (paced.1 ++ [Event.send newBuf])

/-- One iteration of `for { ... }` in `emit`; `env n` is the file system at the
`n`-th call of `updateFile` the producer makes. -/
def emitIter (fmt : Format) (env : Nat → World) (st : EmitState) : Step :=
  match st.i.currentReader with
  | none => .halt .nilReader []
  | some r =>
    match readBytes newline r with
    | (_, some .other, _) => .halt .fatal []
    | (_, some .eof, r1) =>
      match (updateFile (env st.rotations) { st.i with currentReader := some r1 }).result with
      | .ok i2 => .next { st with i := i2, rotations := st.rotations + 1 } []
      | .err _ => .halt .finished []
      | .fatal => .halt .fatal []
      | .panic => .halt .indexOutOfRange []
    | (line, none, r1) =>
      match fmt.payloadSeparator with
      | [] => .halt .sliceOutOfRange []
      | _ :: sentinel =>
        if sentinel = line then frame fmt st { st.i with currentReader := some r1 }
        else
          .next { st with i := { st.i with currentReader := some r1 },
                          buffer := st.buffer ++ line } []

/-- The loop of `emit`, for at most `fuel` iterations. -/
def emitLoop (fmt : Format) (env : Nat → World) : Nat → EmitState → Halt × List Event
  | 0, _ => (.outOfFuel, [])
  | fuel + 1, st =>
    match emitIter fmt env st with
    | .halt h evs => (h, evs)
    | .next st1 evs => ((emitLoop fmt env fuel st1).1, evs ++ (emitLoop fmt env fuel st1).2)

/-- The method `emit`: the loop entered with `lastTime = 0` and an empty buffer. -/
def emit (fmt : Format) (env : Nat → World) (i : FileInput) (fuel : Nat) : Halt × List Event :=
  emitLoop fmt env fuel { i := i, lastTime := 0, buffer := [], rotations := 0 }

/-- The constructor `NewFileInput`, with the producer it starts: the first call
of `updateFile` sees `w0`; when it returns an error no producer is started
(`none`), otherwise the result is the run of `emit`. -/
def NewFileInput (fmt : Format) (w0 : World) (env : Nat → World) (fuel : Nat) :
    Option (Halt × List Event) :=
  match (updateFile w0 ⟨none, none, ⟨true, fun d => d⟩⟩).result with
  | .ok i => some (emit fmt env i fuel)
  | .err _ => none
  | .fatal => some (.fatal, [])
  | .panic => some (.indexOutOfRange, [])

/-! ## `float64` -/

/-- A `float64`. `finite neg m e` is the number `(-1)^neg * m * 2^e`, zero when
`m = 0`; a value of the type has `m < 2^53` and `-1074 ≤ e ≤ 971`. -/
inductive Float64 where
  | finite (neg : Bool) (m : Nat) (e : Int)
  | inf (neg : Bool)
  | nan
deriving DecidableEq, Repr

/-- The position of the leading bit of `n`, searched with `fuel` halvings. -/
def log2Fuel : Nat → Nat → Nat
  | 0, _ => 0
  | fuel + 1, n => if 2 ≤ n then log2Fuel fuel (n / 2) + 1 else 0

/-- The position of the leading bit: `2 ^ ilog2 n ≤ n < 2 ^ (ilog2 n + 1)` for
`n ≥ 1`. -/
def ilog2 (n : Nat) : Nat := log2Fuel n n

/-- The quotient `a / b` of two positive naturals rounded to 53 significant
bits, to nearest and to even on a tie, as IEEE 754 rounds a `float64`: the pair
`(m, e)` stands for `m * 2^e`. -/
def round53 (a b : Nat) : Nat × Int :=
  let k : Int := (ilog2 a : Int) - (ilog2 b : Int)
  let l : Int := if b * 2 ^ k.toNat ≤ a * 2 ^ (-k).toNat then k else k - 1
  let e : Int := l - 52
  let num : Nat := a * 2 ^ (-e).toNat
  let den : Nat := b * 2 ^ e.toNat
  let m0 : Nat := num / den
  let r : Nat := num % den
  (if den < 2 * r ∨ (den = 2 * r ∧ m0 % 2 = 1) then m0 + 1 else m0, e)

/-- The comparison `speedFactor == 1`. -/
def Float64.isOne : Float64 → Bool
  | .finite false m e => decide (e ≤ 0) && decide (m = 2 ^ (-e).toNat)
  | _ => false

/-- The expression `int64(float64(timeDiff) / i.speedFactor)` for the speed
factor `f`: `timeDiff` is rounded to a `float64`, the quotient is rounded again,
and the conversion to `int64` discards the fraction. Where Go leaves the
conversion to the implementation (the quotient is a NaN, an infinity, or lies
outside `int64`), the result is `undef timeDiff`. -/
def scaleFloat (f : Float64) (undef : Int → Int) (timeDiff : Int) : Int :=
  match f with
  | .nan => undef timeDiff
  | .inf _ => 0
  | .finite neg m e =>
    if m = 0 then undef timeDiff
    else if timeDiff = 0 then 0
    else
      let x := round53 timeDiff.natAbs 1
      let q := round53 x.1 m
      let ex : Int := q.2 + x.2 - e
      let mag : Nat := if 0 ≤ ex then q.1 * 2 ^ ex.toNat else q.1 / 2 ^ (-ex).toNat
      if decide (timeDiff < 0) = neg then
        (if mag < 2 ^ 63 then (mag : Int) else undef timeDiff)
      else
        (if mag ≤ 2 ^ 63 then -(mag : Int) else undef timeDiff)

/-- The field `speedFactor` holding the `float64` value `f`. -/
def SpeedFactor.ofFloat (f : Float64) (undef : Int → Int) : SpeedFactor :=
  ⟨f.isOne, scaleFloat f undef⟩

/-! ## Streams of lines -/

/-- A line as `ReadBytes` returns it without error: bytes other than the
terminator, then the terminator. -/
def IsLine (l : List Byte) : Prop := l.getLast? = some newline ∧ newline ∉ l.dropLast

instance (l : List Byte) : Decidable (IsLine l) := by
  unfold IsLine; infer_instance

/-- The stream in which every section (a list of lines) is followed by the
sentinel line. -/
def streamOf (sentinel : List Byte) (sections : List (List (List Byte))) : List Byte :=
  (sections.map (fun sec => sec.flatten ++ sentinel)).flatten

/-- The number of lines of `streamOf`: one loop iteration each. -/
def lineCount (sections : List (List (List Byte))) : Nat :=
  (sections.map (fun sec => sec.length + 1)).sum

/-- The line the next iteration of `emit` reads without error, if any. -/
def lineRead (st : EmitState) : Option (List Byte) :=
  match st.i.currentReader with
  | none => none
  | some r =>
    match readBytes newline r with
    | (line, none, _) => some line
    | _ => none

/-- The state `n` iterations into the loop of `emit`, with the lines read since
the last sentinel line, or since the start when none was read; `none` when the
loop has ended before. -/
def pending (fmt : Format) (env : Nat → World) : Nat → EmitState →
    Option (EmitState × List (List Byte))
  | 0, st => some (st, [])
  | n + 1, st =>
    match pending fmt env n st with
    | none => none
    | some (s, ls) =>
      match emitIter fmt env s with
      | .halt _ _ => none
      | .next s1 _ =>
        some (s1,
          match lineRead s with
          | none => ls
          | some l => if fmt.payloadSeparator.tail = l then [] else ls ++ [l])

/-! ## Sample instances -/

/-- Split a byte list at every `d`. -/
def splitOn (d : Byte) : List Byte → List (List Byte)
  | [] => [[]]
  | b :: bs =>
    if b = d then [] :: splitOn d bs
    else
      match splitOn d bs with
      | [] => [[b]]
      | f :: fs => (b :: f) :: fs

/-- A record format for the examples: the fields are the tokens of the
first line, separated by a space; the request tag is `1`; the separator is
`\n#\n`, so the sentinel line is `#\n`. -/
def sampleFormat : Format where
  payloadSeparator := ascii "\n#\n"
  RequestPayload := 49
  payloadMeta := fun b => splitOn 32 (b.takeWhile (fun c => c != newline))

/-- Speed factor `1.0`. -/
def realTime : SpeedFactor := ⟨true, fun d => d⟩

/-- A world holding the given files, none of them compressed. -/
def worldOf (files : List (GoString × List Byte)) : World where
  glob := some (files.map Prod.fst)
  osOpen := fun p => (files.lookup p).map (fun c => ⟨c, false⟩)
  gzipNewReader := fun _ => none

/-- A source at speed `1.0` whose current file `p`, of content `c`, is unread. -/
def atFile (p : GoString) (c : List Byte) : FileInput :=
  ⟨some ⟨p, ⟨c, false⟩⟩, some ⟨c, false⟩, realTime⟩

/-- A source at speed `1.0` whose current file `p`, of content `c`, is read to
its end. -/
def drained (p : GoString) (c : List Byte) : FileInput :=
  ⟨some ⟨p, ⟨c, false⟩⟩, some ⟨[], false⟩, realTime⟩

/-- A source before its first call of `updateFile`. -/
def blank : FileInput := ⟨none, none, realTime⟩

/-- The name of the current file after a call of `updateFile`. -/
def currentName : UpdateResult → Option GoString
  | .ok i => i.currentFile.map (fun f => f.name)
  | .err i => i.currentFile.map (fun f => f.name)
  | .fatal => none
  | .panic => none

def logA : GoString := ascii "a.log"

def logB : GoString := ascii "b.log"

def logC : GoString := ascii "c.log"

def bytesA : List Byte := ascii "1 a 10\nX\n#\n"

def bytesB : List Byte := ascii "1 b 20\nY\n#\n"

def bytesC : List Byte := ascii "1 c 30\nZ\n#\n"

/-- Speed factor `2.0`. -/
def doubleSpeed : SpeedFactor := SpeedFactor.ofFloat (.finite false 2 0) (fun _ => 0)

/-- The `float64` nearest `0.1`, as a speed factor. -/
def tenthSpeed : SpeedFactor :=
  SpeedFactor.ofFloat (.finite false 7205759403792794 (-56)) (fun _ => 0)

/-- A first file that ends inside a record, and a second file of one record. -/
def cutShort : World := worldOf [(logA, ascii "1 a 10\nX\n"), (logB, ascii "1 b 20\nY\n#\n")]

/-- The match set `a.log`, `b.log`, `c.log`, as the glob happens to list it. -/
def threeLogs : World := worldOf [(logC, bytesC), (logA, bytesA), (logB, bytesB)]

/-! ## Lemmas on `updateFile` -/

/-- When no entry that equals the current name sits before the last index, the
loop of `updateFile` opens nothing. -/
theorem scanMatches_idle (w : World) (ms : List GoString) (cur : OsFile) :
    ∀ (rest : List GoString) (idx : Nat) (found : Bool) (opened : List GoString),
      (∀ j p, rest[j]? = some p → p = cur.name → idx + j = ms.length - 1) →
      scanMatches w ms rest idx cur found opened = .done cur found opened := by
  intro rest
  induction rest with
  | nil => intro idx found opened _; rfl
  | cons p rest ih =>
    intro idx found opened h
    have hp : ¬ (p = cur.name ∧ idx ≠ ms.length - 1) := by
      rintro ⟨h1, h2⟩
      exact h2 (by simpa using h 0 p (by simp) h1)
    rw [scanMatches, if_neg hp]
    apply ih
    intro j q hj hq
    have := h (j + 1) q (by simpa using hj) hq
    omega

/-- Sorting a duplicate-free match set gives a strictly increasing list. -/
theorem sorted_lt_of_nodup (l : List GoString) (h : l.Nodup) :
    (l.insertionSort (· ≤ ·)).Pairwise (· < ·) := by
  have hs : (l.insertionSort (· ≤ ·)).Sorted (· ≤ ·) := List.sorted_insertionSort _ l
  have hn : (l.insertionSort (· ≤ ·)).Nodup := (List.perm_insertionSort _ l).nodup_iff.mpr h
  exact hs.lt_of_le hn

theorem idx_of_last (ms : List GoString) (h : ms.Pairwise (· < ·)) (x : GoString)
    (hl : ms.getLast? = some x) (j : Nat) (hj : ms[j]? = some x) : j = ms.length - 1 := by
  have hn : ms.Nodup := h.imp (fun hab => ne_of_lt hab)
  have h2 : ms[ms.length - 1]? = some x := by
    rw [← hl, List.getLast?_eq_getElem?]
  rcases List.getElem?_eq_some.mp hj with ⟨h1, e1⟩
  rcases List.getElem?_eq_some.mp h2 with ⟨h3, e3⟩
  exact (List.Nodup.getElem_inj_iff hn).mp (e1.trans e3.symm)

theorem mem_of_getElem?_some {α : Type} (l : List α) (j : Nat) (x : α)
    (h : l[j]? = some x) : x ∈ l := by
  rcases List.getElem?_eq_some.mp h with ⟨h1, e1⟩
  exact e1 ▸ List.getElem_mem h1

theorem updateFile_no_newer (w : World) (i : FileInput) (globbed : List GoString)
    (cur : OsFile) (hg : w.glob = some globbed) (hne : globbed ≠ [])
    (hnd : globbed.Nodup) (hc : i.currentFile = some cur)
    (hlast : (globbed.insertionSort (· ≤ ·)).getLast? = some cur.name ∨ cur.name ∉ globbed) :
    (updateFile w i).result = .err i ∧ (updateFile w i).opened = [] := by
  have hlen : ¬ globbed.length = 0 := by
    intro h; exact hne (List.length_eq_zero.mp h)
  have hidle := scanMatches_idle w (globbed.insertionSort (· ≤ ·)) cur
    (globbed.insertionSort (· ≤ ·)) 0 false [] (by
      intro j p hj hp
      subst hp
      rcases hlast with hl | hl
      · simpa using idx_of_last _ (sorted_lt_of_nodup globbed hnd) _ hl j hj
      · exact absurd ((List.perm_insertionSort _ globbed).mem_iff.mp
          (mem_of_getElem?_some _ _ _ hj)) hl)
  have hi : ({ i with currentFile := some cur } : FileInput) = i := by
    cases i; simp_all
  simp only [updateFile, hg, hlen, if_false, hc, hidle]
  simp [hi]

/-! ## Exhaustion of the file set -/

/-- C4: for a non-empty duplicate-free match set and a current file whose path
is the last entry of the sorted matches, or is not among them, `updateFile`
returns an error, hands nothing to `os.Open` and leaves the receiver as it was
(`currentFile` and `currentReader` included); and `emit`, meeting end of input in
such a world, leaves its loop at once and sends no further record. -/
theorem updateFile_exhausted (w : World) (i : FileInput) (globbed : List GoString)
    (cur : OsFile) (hg : w.glob = some globbed) (hne : globbed ≠ [])
    (hnd : globbed.Nodup) (hc : i.currentFile = some cur)
    (hlast : (globbed.insertionSort (· ≤ ·)).getLast? = some cur.name ∨ cur.name ∉ globbed) :
    (updateFile w i).result = .err i ∧ (updateFile w i).opened = [] ∧
    ∀ (fmt : Format) (env : Nat → World) (st : EmitState) (r : ByteStream) (fuel : Nat),
      st.i.currentFile = some cur → st.i.currentReader = some r →
      (readBytes newline r).2.1 = some ReadErr.eof → env st.rotations = w →
      emitLoop fmt env (fuel + 1) st = (Halt.finished, []) := by
  refine ⟨(updateFile_no_newer w i globbed cur hg hne hnd hc hlast).1,
    (updateFile_no_newer w i globbed cur hg hne hnd hc hlast).2, ?_⟩
  intro fmt env st r fuel hsc hr heof hw
  have hu := (updateFile_no_newer w { st.i with currentReader := some (readBytes newline r).2.2 }
    globbed cur hg hne hnd hsc hlast).1
  rcases hrb : readBytes newline r with ⟨line, e, r1⟩
  rw [hrb] at heof hu
  simp only at heof hu
  subst heof
  simp only [emitLoop, emitIter, hr, hrb, hw, hu]

/-! ## Rotation only moves forward -/

/-- What the loop of `updateFile` does over strictly increasing matches: the
paths it opens form a strictly increasing chain above the current name, all of
them matches, and it ends on the last one it opened. -/
theorem scanMatches_spec (w : World) (ms : List GoString) (hms : ms.Pairwise (· < ·)) :
    ∀ (rest : List GoString) (idx : Nat) (cur : OsFile) (found : Bool)
      (opened : List GoString), rest = ms.drop idx →
      ∃ extra, List.Chain (· < ·) cur.name extra ∧ (∀ p ∈ extra, p ∈ ms) ∧
        match scanMatches w ms rest idx cur found opened with
        | .done cur1 found1 opened1 =>
            opened1 = opened ++ extra ∧ cur1.name = (extra.getLast?).getD cur.name ∧
            (found1 = true → found = true ∨ extra ≠ [])
        | .openFailed opened1 => opened1 = opened ++ extra
        | .outOfRange opened1 => opened1 = opened ++ extra := by
  intro rest
  induction rest with
  | nil =>
    intro idx cur found opened _
    exact ⟨[], List.Chain.nil, by simp, by simp [scanMatches]⟩
  | cons p rest ih =>
    intro idx cur found opened hrest
    have hrest1 : rest = ms.drop (idx + 1) := by
      have := congrArg List.tail hrest
      simpa using this
    have hp : ms[idx]? = some p := by
      have := congrArg List.head? hrest
      simp [List.head?_drop] at this
      exact this.symm
    rw [scanMatches]
    split_ifs with hc
    · rcases hn : ms[idx + 1]? with _ | nxt
      · exact ⟨[], List.Chain.nil, by simp, by simp⟩
      · have hlt : cur.name < nxt := by
          rcases List.getElem?_eq_some.mp hp with ⟨h1, e1⟩
          rcases List.getElem?_eq_some.mp hn with ⟨h2, e2⟩
          rw [← hc.1, ← e1, ← e2]
          exact List.pairwise_iff_getElem.mp hms idx (idx + 1) h1 h2 (Nat.lt_succ_self idx)
        have hmem : nxt ∈ ms := mem_of_getElem?_some _ _ _ hn
        rcases ho : w.osOpen nxt with _ | c
        · exact ⟨[nxt], List.Chain.cons hlt List.Chain.nil, by simpa using hmem, by simp [ho]⟩
        · obtain ⟨extra, hch, hmm, hres⟩ := ih (idx + 1) ⟨nxt, c⟩ true (opened ++ [nxt]) hrest1
          refine ⟨nxt :: extra, List.Chain.cons hlt hch, ?_, ?_⟩
          · intro q hq
            rcases List.mem_cons.mp hq with h | h
            · exact h ▸ hmem
            · exact hmm q h
          · simp only [ho]
            revert hres
            cases scanMatches w ms rest (idx + 1) ⟨nxt, c⟩ true (opened ++ [nxt]) with
            | done c1 f1 o1 =>
              rintro ⟨h1, h2, _⟩
              refine ⟨by simp [h1], ?_, fun _ => Or.inr (by simp)⟩
              rw [h2]
              cases extra with
              | nil => simp
              | cons e es =>
                rw [List.getLast?_cons_cons, List.getLast?_eq_getLast _ (List.cons_ne_nil e es)]
                rfl
            | openFailed o1 => intro h; simpa using h
            | outOfRange o1 => intro h; simpa using h
    · exact ih (idx + 1) cur found opened hrest1

/-- A successful `wrapReader` makes the given file the current one. -/
theorem wrapReader_ok (w : World) (i i1 : FileInput) (f : OsFile)
    (h : wrapReader w i f = .ok i1) : i1.currentFile = some f := by
  unfold wrapReader at h
  split_ifs at h
  · split at h
    · cases h
    · injection h with h; rw [← h]
  · injection h with h; rw [← h]

/-- One call of `updateFile` on a duplicate-free match set: every path handed to
`os.Open` is a match, the paths opened rise strictly from the current name, and
after a call that returned `nil` the current file is the last path opened. -/
theorem updateFile_spec (w : World) (i : FileInput)
    (hnd : ∀ g, w.glob = some g → g.Nodup) :
    (∀ p ∈ (updateFile w i).opened, ∃ g, w.glob = some g ∧ p ∈ g) ∧
    (∀ cur, i.currentFile = some cur → List.Chain (· < ·) cur.name (updateFile w i).opened) ∧
    (i.currentFile = none → (updateFile w i).opened.length ≤ 1) ∧
    (∀ i1, (updateFile w i).result = .ok i1 →
      ∃ f, i1.currentFile = some f ∧ (updateFile w i).opened.getLast? = some f.name) := by
  rcases hg : w.glob with _ | globbed
  · simp [updateFile, hg]
  · by_cases hlen : globbed.length = 0
    · simp [updateFile, hg, hlen]
    · have hsorted := sorted_lt_of_nodup globbed (hnd globbed hg)
      have hperm := List.perm_insertionSort (· ≤ ·) globbed
      rcases hc : i.currentFile with _ | cur
      · rcases h0 : (globbed.insertionSort (· ≤ ·))[0]? with _ | m0
        · simp [updateFile, hg, hlen, hc, h0]
        · have hm0 : m0 ∈ globbed := hperm.mem_iff.mp (mem_of_getElem?_some _ _ _ h0)
          rcases ho : w.osOpen m0 with _ | c
          · simp [updateFile, hg, hlen, hc, h0, ho, hm0]
          · simp only [updateFile, hg, hlen, if_false, hc, h0, ho]
            refine ⟨by simpa using hm0, by simp, by simp, ?_⟩
            intro i1 h1
            exact ⟨⟨m0, c⟩, wrapReader_ok w i i1 _ h1, by simp⟩
      · obtain ⟨extra, hch, hmm, hres⟩ := scanMatches_spec w _ hsorted
          (globbed.insertionSort (· ≤ ·)) 0 cur false [] (by simp)
        have hmem : ∀ p ∈ extra, ∃ g, some globbed = some g ∧ p ∈ g :=
          fun p hp => ⟨globbed, rfl, hperm.mem_iff.mp (hmm p hp)⟩
        have hchain : ∀ c0 : OsFile, some cur = some c0 → List.Chain (· < ·) c0.name extra := by
          intro c0 h0
          simp only [Option.some.injEq] at h0
          subst h0
          exact hch
        rcases hs : scanMatches w (globbed.insertionSort (· ≤ ·))
          (globbed.insertionSort (· ≤ ·)) 0 cur false [] with ⟨c1, f1, o1⟩ | o1 | o1
        · rw [hs] at hres
          obtain ⟨h1, h2, h3⟩ := hres
          simp only [List.nil_append] at h1
          subst h1
          cases f1 with
          | false =>
            simp only [updateFile, hg, hlen, if_false, hc, hs]
            exact ⟨hmem, hchain, by simp, by simp⟩
          | true =>
            simp only [updateFile, hg, hlen, if_false, hc, hs]
            refine ⟨hmem, hchain, by simp, ?_⟩
            intro i1 hi1
            refine ⟨c1, wrapReader_ok w i i1 c1 (by simpa using hi1), ?_⟩
            have hne : o1 ≠ [] := by
              rcases h3 rfl with h | h
              · cases h
              · exact h
            simp only [Bool.not_true, Bool.false_eq_true, if_false]
            rw [h2, List.getLast?_eq_getLast _ hne]
            rfl
        · rw [hs] at hres
          simp only [List.nil_append] at hres
          subst hres
          simp only [updateFile, hg, hlen, if_false, hc, hs]
          exact ⟨hmem, hchain, by simp, by simp⟩
        · rw [hs] at hres
          simp only [List.nil_append] at hres
          subst hres
          simp only [updateFile, hg, hlen, if_false, hc, hs]
          exact ⟨hmem, hchain, by simp, by simp⟩

/-- Gluing the paths opened by one call to those opened by the later calls. -/
theorem chain_glue (l rest : List GoString) (hl : List.Chain' (· < ·) l)
    (hr : rest = [] ∨ ∃ f, l.getLast? = some f ∧ List.Chain (· < ·) f rest) :
    List.Chain' (· < ·) (l ++ rest) := by
  rcases hr with h | ⟨f, hf, hch⟩
  · simpa [h] using hl
  · have h2 : List.Chain' (· < ·) (f :: rest) := hch
    rw [List.chain'_cons'] at h2
    refine List.Chain'.append hl h2.2 ?_
    intro x hx y hy
    rw [hf] at hx
    simp only [Option.mem_def, Option.some.injEq] at hx
    subst hx
    exact h2.1 y hy

/-- The paths opened over the calls of one source rise strictly, starting above
the current name when there is one. -/
theorem updateCalls_chain :
    ∀ (ws : List World) (i : FileInput),
      (∀ w ∈ ws, ∀ g, w.glob = some g → g.Nodup) →
      (∀ cur, i.currentFile = some cur → List.Chain (· < ·) cur.name (updateCalls ws i)) ∧
      List.Chain' (· < ·) (updateCalls ws i) := by
  intro ws
  induction ws with
  | nil => intro i _; exact ⟨fun _ _ => List.Chain.nil, List.chain'_nil⟩
  | cons w ws ih =>
    intro i hnd
    obtain ⟨-, hchain, hnone, hok⟩ := updateFile_spec w i (hnd w (List.mem_cons_self w ws))
    have hws : ∀ w1 ∈ ws, ∀ g, w1.glob = some g → g.Nodup :=
      fun w1 h1 => hnd w1 (List.mem_cons_of_mem w h1)
    obtain ⟨rest, hrest, hglue⟩ : ∃ rest, updateCalls (w :: ws) i = (updateFile w i).opened ++ rest ∧
        (rest = [] ∨ ∃ f, (updateFile w i).opened.getLast? = some f ∧
          List.Chain (· < ·) f rest) := by
      rcases hr : (updateFile w i).result with i1 | i1 | _ | _
      · obtain ⟨f, hf, hlast⟩ := hok i1 hr
        exact ⟨updateCalls ws i1, by rw [updateCalls, hr],
          Or.inr ⟨f.name, hlast, (ih i1 hws).1 f hf⟩⟩
      · exact ⟨[], by rw [updateCalls, hr], Or.inl rfl⟩
      · exact ⟨[], by rw [updateCalls, hr], Or.inl rfl⟩
      · exact ⟨[], by rw [updateCalls, hr], Or.inl rfl⟩
    rw [hrest]
    constructor
    · intro cur hc
      have h1 : List.Chain' (· < ·) (cur.name :: (updateFile w i).opened) := hchain cur hc
      have h2 := chain_glue (cur.name :: (updateFile w i).opened) rest h1 (by
        rcases hglue with h | ⟨f, hf, hch⟩
        · exact Or.inl h
        · refine Or.inr ⟨f, ?_, hch⟩
          rcases ho : (updateFile w i).opened with _ | ⟨a, t⟩
          · rw [ho] at hf; cases hf
          · rw [ho] at hf; rw [List.getLast?_cons_cons]; exact hf)
      exact h2
    · apply chain_glue _ _ _ hglue
      rcases hc : i.currentFile with _ | cur
      · have hl := hnone hc
        rcases ho : (updateFile w i).opened with _ | ⟨a, t⟩
        · exact List.chain'_nil
        · have ht : t = [] := by
            rw [ho] at hl
            simpa using hl
          subst ht
          exact List.chain'_singleton a
      · exact List.Chain'.tail (l := cur.name :: (updateFile w i).opened) (hchain cur hc)

/-- C9: over the calls of `updateFile` one source makes, each with its own
duplicate-free match set, every path handed to `os.Open` is a member of that
call's match set and strictly greater than the path current just before it; so
the paths opened are strictly increasing over the whole run, each lies above the
file the run started from, and none is opened twice. -/
theorem updateFile_forward (ws : List World) (i : FileInput)
    (hnd : ∀ w ∈ ws, ∀ g, w.glob = some g → g.Nodup) :
    (∀ w ∈ ws, ∀ (j : FileInput), ∀ p ∈ (updateFile w j).opened,
        ∃ g, w.glob = some g ∧ p ∈ g) ∧
    (∀ w ∈ ws, ∀ (j : FileInput) (cur : OsFile), j.currentFile = some cur →
        List.Chain (· < ·) cur.name (updateFile w j).opened) ∧
    (updateCalls ws i).Pairwise (· < ·) ∧
    (updateCalls ws i).Nodup ∧
    (∀ cur, i.currentFile = some cur → ∀ p ∈ updateCalls ws i, cur.name < p) := by
  have hp : (updateCalls ws i).Pairwise (· < ·) :=
    List.chain'_iff_pairwise.mp (updateCalls_chain ws i hnd).2
  refine ⟨fun w hw j => (updateFile_spec w j (hnd w hw)).1,
    fun w hw j => (updateFile_spec w j (hnd w hw)).2.1, hp,
    hp.imp (fun h => ne_of_lt h), ?_⟩
  intro cur hc p hpm
  have h := List.chain_iff_pairwise.mp ((updateCalls_chain ws i hnd).1 cur hc)
  exact (List.pairwise_cons.mp h).1 p hpm

/-! ## Rotation over three files -/

/-- C1: with matches `a.log`, `b.log`, `c.log` and `a.log` current, one call of
`updateFile` hands both `b.log` and `c.log` to `os.Open` and returns with `c.log`
current, not `b.log`; the producer started on these files sends the record of
`a.log` and next the record of `c.log`, and the record of `b.log` is never
sent. -/
theorem updateFile_skips_to_last :
    (updateFile threeLogs (atFile logA bytesA)).opened = [logB, logC] ∧
    currentName (updateFile threeLogs (atFile logA bytesA)).result = some logC ∧
    currentName (updateFile threeLogs (atFile logA bytesA)).result ≠ some logB ∧
    NewFileInput sampleFormat threeLogs (fun _ => threeLogs) 8 =
      some (Halt.finished, [Event.send (ascii "1 a 10\nX"), Event.sleep 20,
        Event.send (ascii "1 c 30\nZ")]) := by
  refine ⟨by decide, by decide, by decide, by decide⟩

theorem updateFile_exhausted_witness :
    (updateFile threeLogs (atFile logC bytesC)).opened = [] ∧
    emitLoop sampleFormat (fun _ => threeLogs) 1 ⟨drained logC bytesC, 7, [], 0⟩ =
      (Halt.finished, []) :=
  have h := updateFile_exhausted threeLogs (atFile logC bytesC) [logC, logA, logB]
    ⟨logC, ⟨bytesC, false⟩⟩ rfl (by decide) (by decide) rfl (Or.inl (by decide))
  ⟨h.2.1, h.2.2 sampleFormat (fun _ => threeLogs) ⟨drained logC bytesC, 7, [], 0⟩ ⟨[], false⟩ 0
    rfl rfl rfl rfl⟩

theorem updateFile_forward_witness :
    (updateCalls [threeLogs, threeLogs, threeLogs] blank).Nodup ∧
    updateCalls [threeLogs, threeLogs, threeLogs] blank = [logA, logB, logC] :=
  ⟨(updateFile_forward [threeLogs, threeLogs, threeLogs] blank (by
      intro w hw g hg
      simp only [List.mem_cons, List.mem_singleton, List.not_mem_nil, or_false, or_self] at hw
      subst hw
      have : g = [logC, logA, logB] := by
        have h : threeLogs.glob = some [logC, logA, logB] := rfl
        rw [h] at hg
        exact (Option.some.inj hg).symm
      subst this
      decide)).2.2.2.1, by decide⟩

/-! ## `Read` -/

/-- C5: a record of three bytes read into a destination of two: `Read` returns
3 although `copy` moved 2 bytes, the minimum of the two lengths. -/
theorem Read_exceeds_copied :
    (Read [1, 2, 3] [0, 0]).2.1 = 3 ∧ (goCopy [0, 0] [1, 2, 3]).2 = 2 ∧
    min ([0, 0] : List Byte).length ([1, 2, 3] : List Byte).length = 2 ∧
    (Read [1, 2, 3] [0, 0]).1 = [1, 2] := by
  decide

/-- C5, amended: `Read` returns the length of the record and a nil error; `copy`
moves `min(len(d), len(r))` bytes, the head of the record over the head of the
destination; so the integer returned is the number of bytes copied exactly when
the record fits the destination. -/
theorem Read_returns_record_length (r d : List Byte) :
    (Read r d).2.1 = (r.length : Int) ∧ (Read r d).2.2 = true ∧
    (goCopy d r).2 = min d.length r.length ∧
    (Read r d).1 = r.take (min d.length r.length) ++ d.drop (min d.length r.length) ∧
    ((Read r d).2.1 = ((goCopy d r).2 : Int) ↔ r.length ≤ d.length) := by
  refine ⟨rfl, rfl, rfl, rfl, ?_⟩
  simp only [Read, goCopy]
  omega

/-! ## Lines -/

theorem cutLine_line (body rest : List Byte) (h : newline ∉ body) :
    cutLine newline (body ++ newline :: rest) = some (body ++ [newline], rest) := by
  induction body with
  | nil => simp [cutLine]
  | cons b bs ih =>
    have hb : b ≠ newline := fun e => h (by simp [e])
    have hbs : newline ∉ bs := fun e => h (by simp [e])
    simp [cutLine, hb, ih hbs]

theorem IsLine.eq_append {l : List Byte} (h : IsLine l) : l = l.dropLast ++ [newline] := by
  rcases List.eq_nil_or_concat l with h0 | ⟨b, c, h0⟩
  · rw [h0] at h; cases h.1
  · have := h.1
    rw [h0, List.concat_eq_append] at this ⊢
    simp only [List.getLast?_append, List.getLast?_singleton] at this
    simp only [Option.or_some, Option.some.injEq] at this
    simp [this]

/-- A line read without error is a line, and the reader held it followed by
what is left. -/
theorem cutLine_some (bs l rest : List Byte) (h : cutLine newline bs = some (l, rest)) :
    IsLine l ∧ bs = l ++ rest := by
  induction bs generalizing l rest with
  | nil => cases h
  | cons b bs ih =>
    rw [cutLine] at h
    split_ifs at h with hb
    · cases h
      subst hb
      exact ⟨by decide, rfl⟩
    · rcases hc : cutLine newline bs with _ | ⟨l1, r1⟩
      · rw [hc] at h; cases h
      · rw [hc] at h
        cases h
        obtain ⟨hl, hbs⟩ := ih l1 rest hc
        refine ⟨?_, by rw [hbs]; rfl⟩
        cases l1 with
        | nil => cases hl.1
        | cons c cs =>
          constructor
          · rw [List.getLast?_cons_cons]
            exact hl.1
          · rw [List.dropLast_cons₂]
            intro hm
            rcases List.mem_cons.mp hm with e | e
            · exact hb e.symm
            · exact hl.2 e

/-! ## One iteration of `emit` -/

theorem readBytes_line (l rest : List Byte) (br : Bool) (hl : IsLine l) :
    readBytes newline ⟨l ++ rest, br⟩ = (l, none, ⟨rest, br⟩) := by
  have h : cutLine newline (l ++ rest) = some (l, rest) := by
    have := cutLine_line l.dropLast rest hl.2
    rw [← List.singleton_append, ← List.append_assoc, ← hl.eq_append] at this
    exact this
  simp [readBytes, h]

/-- An iteration that reads a line other than the sentinel appends it to the
buffer and does nothing else. -/
theorem emitIter_line (fmt : Format) (env : Nat → World) (cf : Option OsFile)
    (sf : SpeedFactor) (br : Bool) (lt : Int) (buf : List Byte) (n : Nat)
    (t : Byte) (sentinel l rest : List Byte)
    (hsep : fmt.payloadSeparator = t :: sentinel) (hl : IsLine l) (hne : l ≠ sentinel) :
    emitIter fmt env ⟨⟨cf, some ⟨l ++ rest, br⟩, sf⟩, lt, buf, n⟩ =
      .next ⟨⟨cf, some ⟨rest, br⟩, sf⟩, lt, buf ++ l, n⟩ [] := by
  have hne2 : ¬ sentinel = l := fun e => hne e.symm
  simp [emitIter, readBytes_line l rest br hl, hsep, hne2]

/-- An iteration that reads the sentinel line takes the framing branch. -/
theorem emitIter_sentinel (fmt : Format) (env : Nat → World) (cf : Option OsFile)
    (sf : SpeedFactor) (br : Bool) (lt : Int) (buf : List Byte) (n : Nat)
    (t : Byte) (sentinel rest : List Byte)
    (hsep : fmt.payloadSeparator = t :: sentinel) (hl : IsLine sentinel) :
    emitIter fmt env ⟨⟨cf, some ⟨sentinel ++ rest, br⟩, sf⟩, lt, buf, n⟩ =
      frame fmt ⟨⟨cf, some ⟨sentinel ++ rest, br⟩, sf⟩, lt, buf, n⟩
        ⟨cf, some ⟨rest, br⟩, sf⟩ := by
  simp [emitIter, readBytes_line sentinel rest br hl, hsep]

/-- The record allocated and filled by `make` and `copy` is the buffer without
its last byte. -/
theorem newBuf_eq (buf : List Byte) :
    (goCopy (List.replicate (buf.length - 1) 0) buf).1 = buf.dropLast := by
  simp [goCopy, List.dropLast_eq_take]

/-- The framing branch on a non-empty buffer, when `meta[0][0]` is in range. -/
theorem frame_next (fmt : Format) (st : EmitState) (i1 : FileInput) (req : Bool)
    (hbuf : st.buffer ≠ [])
    (hreq : isRequest fmt (fmt.payloadMeta st.buffer) = some req) :
    frame fmt st i1 =
      .next ⟨i1, (if req then pace i1.speedFactor st.lastTime (fmt.payloadMeta st.buffer)
                  else ([], st.lastTime)).2, [], st.rotations⟩
        ((if req then pace i1.speedFactor st.lastTime (fmt.payloadMeta st.buffer)
          else ([], st.lastTime)).1 ++ [Event.send st.buffer.dropLast]) := by
  have hlen : ¬ ((st.buffer.length : Int) - 1 < 0) := by
    have : 0 < st.buffer.length := List.length_pos.mpr hbuf
    omega
  simp only [frame, hreq, hlen, if_false, newBuf_eq]

/-- The framing branch on an empty buffer: `make` is given length `-1`, unless
`meta[0][0]` was out of range before. -/
theorem frame_empty (fmt : Format) (st : EmitState) (i1 : FileInput)
    (hbuf : st.buffer = []) :
    ((∃ evs, frame fmt st i1 = .halt .negativeLen evs) ↔
      isRequest fmt (fmt.payloadMeta []) ≠ none) := by
  unfold frame
  rw [hbuf]
  rcases h : isRequest fmt (fmt.payloadMeta []) with _ | req
  · simp [h]
  · simp [h]

/-! ## Runs of `emit` over lines and records -/

theorem emitLoop_succ_next (fmt : Format) (env : Nat → World) (k : Nat)
    (st st1 : EmitState) (evs : List Event) (h : emitIter fmt env st = .next st1 evs) :
    emitLoop fmt env (k + 1) st =
      ((emitLoop fmt env k st1).1, evs ++ (emitLoop fmt env k st1).2) := by
  simp only [emitLoop, h]

/-- Lines other than the sentinel are appended to the buffer, one iteration
each, with no event. -/
theorem emitLoop_lines (fmt : Format) (env : Nat → World) (cf : Option OsFile)
    (sf : SpeedFactor) (br : Bool) (t : Byte) (sentinel : List Byte)
    (hsep : fmt.payloadSeparator = t :: sentinel) :
    ∀ (ls : List (List Byte)), (∀ l ∈ ls, IsLine l ∧ l ≠ sentinel) →
      ∀ (lt : Int) (buf : List Byte) (n : Nat) (rest : List Byte) (k : Nat),
        emitLoop fmt env (ls.length + k) ⟨⟨cf, some ⟨ls.flatten ++ rest, br⟩, sf⟩, lt, buf, n⟩ =
          emitLoop fmt env k ⟨⟨cf, some ⟨rest, br⟩, sf⟩, lt, buf ++ ls.flatten, n⟩ := by
  intro ls
  induction ls with
  | nil => intro _ lt buf n rest k; simp
  | cons l ls ih =>
    intro hls lt buf n rest k
    have hl := hls l (List.mem_cons_self l ls)
    have hrest : ∀ x ∈ ls, IsLine x ∧ x ≠ sentinel :=
      fun x hx => hls x (List.mem_cons_of_mem l hx)
    have hk : (l :: ls).length + k = (ls.length + k) + 1 := by
      simp only [List.length_cons]; omega
    rw [hk, List.flatten_cons, List.append_assoc,
      emitLoop_succ_next fmt env _ _ _ _
        (emitIter_line fmt env cf sf br lt buf n t sentinel l (ls.flatten ++ rest) hsep hl.1 hl.2),
      ih hrest lt (buf ++ l) n rest k]
    simp [List.append_assoc]

/-- A record, its lines followed by the sentinel line: the pacing events, the
send of the buffer without its last byte, then the run on what follows. -/
theorem emitLoop_record (fmt : Format) (env : Nat → World) (cf : Option OsFile)
    (sf : SpeedFactor) (br : Bool) (t : Byte) (sentinel : List Byte)
    (hsep : fmt.payloadSeparator = t :: sentinel) (hsl : IsLine sentinel)
    (ls : List (List Byte)) (hls : ∀ l ∈ ls, IsLine l ∧ l ≠ sentinel)
    (lt : Int) (buf : List Byte) (n : Nat) (rest : List Byte) (k : Nat) (req : Bool)
    (hne : buf ++ ls.flatten ≠ [])
    (hreq : isRequest fmt (fmt.payloadMeta (buf ++ ls.flatten)) = some req) :
    emitLoop fmt env (ls.length + (k + 1))
        ⟨⟨cf, some ⟨ls.flatten ++ (sentinel ++ rest), br⟩, sf⟩, lt, buf, n⟩ =
      ((emitLoop fmt env k ⟨⟨cf, some ⟨rest, br⟩, sf⟩,
          (if req then pace sf lt (fmt.payloadMeta (buf ++ ls.flatten)) else ([], lt)).2,
          [], n⟩).1,
       (if req then pace sf lt (fmt.payloadMeta (buf ++ ls.flatten)) else ([], lt)).1 ++
         [Event.send (buf ++ ls.flatten).dropLast] ++
       (emitLoop fmt env k ⟨⟨cf, some ⟨rest, br⟩, sf⟩,
          (if req then pace sf lt (fmt.payloadMeta (buf ++ ls.flatten)) else ([], lt)).2,
          [], n⟩).2) := by
  rw [emitLoop_lines fmt env cf sf br t sentinel hsep ls hls lt buf n (sentinel ++ rest) (k + 1),
    emitLoop_succ_next fmt env k _ _ _
      ((emitIter_sentinel fmt env cf sf br lt (buf ++ ls.flatten) n t sentinel rest hsep hsl).trans
        (frame_next fmt _ _ req hne hreq))]

/-- The request test on metadata that is short, or whose tag is another one. -/
theorem isRequest_other (fmt : Format) (fields : List (List Byte))
    (h : fields.length < 3 ∨
      ∃ tag f0 fs, fields = (tag :: f0) :: fs ∧ tag ≠ fmt.RequestPayload) :
    isRequest fmt fields = some false := by
  unfold isRequest
  rcases h with h | ⟨tag, f0, fs, hf, ht⟩
  · have : ¬ fields.length > 2 := by omega
    simp [this]
  · subst hf
    split_ifs <;> simp [ht]

/-- C8: a record made of lines whose metadata has fewer than three fields, or
whose type tag is not the request marker, is delivered with no call of the
suspend operation and with `lastTime` as it was, whatever `lastTime` is: the
framing branch yields the single event `send`, and the run over a stream that
holds the record is the send of the record followed by the run over the stream
without it, from the same state, so every later delay is the same. -/
theorem emit_passthrough (fmt : Format) (env : Nat → World) (cf : Option OsFile)
    (sf : SpeedFactor) (br : Bool) (t : Byte) (sentinel : List Byte)
    (ls : List (List Byte)) (lt : Int) (n : Nat) (rest : List Byte) (k : Nat)
    (hsep : fmt.payloadSeparator = t :: sentinel) (hsl : IsLine sentinel)
    (hls : ∀ l ∈ ls, IsLine l ∧ l ≠ sentinel) (hne : ls.flatten ≠ [])
    (h : (fmt.payloadMeta ls.flatten).length < 3 ∨
      ∃ tag f0 fs, fmt.payloadMeta ls.flatten = (tag :: f0) :: fs ∧
        tag ≠ fmt.RequestPayload) :
    (∀ (i i1 : FileInput),
      frame fmt ⟨i, lt, ls.flatten, n⟩ i1 =
        .next ⟨i1, lt, [], n⟩ [Event.send ls.flatten.dropLast]) ∧
    emitLoop fmt env (ls.length + (k + 1))
        ⟨⟨cf, some ⟨ls.flatten ++ (sentinel ++ rest), br⟩, sf⟩, lt, [], n⟩ =
      ((emitLoop fmt env k ⟨⟨cf, some ⟨rest, br⟩, sf⟩, lt, [], n⟩).1,
       Event.send ls.flatten.dropLast ::
         (emitLoop fmt env k ⟨⟨cf, some ⟨rest, br⟩, sf⟩, lt, [], n⟩).2) := by
  have hreq := isRequest_other fmt _ h
  constructor
  · intro i i1
    have := frame_next fmt ⟨i, lt, ls.flatten, n⟩ i1 false hne hreq
    simpa using this
  · have := emitLoop_record fmt env cf sf br t sentinel hsep hsl ls hls lt [] n rest k false
      (by simpa using hne) (by simpa using hreq)
    simpa using this

/-! ## Pacing -/

theorem wrap64_of_range (x : Int) (h1 : -(2 ^ 63) ≤ x) (h2 : x < 2 ^ 63) : wrap64 x = x := by
  unfold wrap64
  rw [Int.emod_eq_of_lt (by omega) (by omega)]
  omega

/-- The pacing block after a request record whose timestamp is `t0`, on a
request record whose timestamp is `t1`. -/
theorem pace_eq (sf : SpeedFactor) (t0 t1 : Int) (fields : List (List Byte))
    (h : (ParseInt (fields.getD 2 [])).1 = t1) :
    pace sf t0 fields =
      (if t0 ≠ 0 then
          [Event.sleep (if sf.isOne then wrap64 (t1 - t0) else sf.scale (wrap64 (t1 - t0)))]
        else [], t1) := by
  simp only [pace, timeDiff, h]

/-! ## Timestamps that fail to parse -/

/-- When `ParseInt` reports an error its value is `0` or a bound of `int64`. -/
theorem ParseInt_error_value (s : List Byte) (h : (ParseInt s).2 = true) :
    (ParseInt s).1 = 0 ∨ (ParseInt s).1 = 2 ^ 63 - 1 ∨ (ParseInt s).1 = -(2 ^ 63) := by
  unfold ParseInt at h ⊢
  by_cases h1 : s = []
  · simp [h1]
  · simp only [h1, if_false] at h ⊢
    generalize (if s.head? = some 43 ∨ s.head? = some 45 then s.tail else s) = body at h ⊢
    generalize (decide (s.head? = some 45)) = neg at h ⊢
    rcases hp : parseDigits body with _ | un
    · exact Or.inl rfl
    · simp only [hp] at h ⊢
      by_cases c1 : neg = false ∧ un ≥ 2 ^ 63
      · rw [if_pos c1]; exact Or.inr (Or.inl rfl)
      · rw [if_neg c1] at h ⊢
        by_cases c2 : neg = true ∧ un > 2 ^ 63
        · rw [if_pos c2]; exact Or.inr (Or.inr rfl)
        · rw [if_neg c2] at h; cases h

/-- C7: at speed factor `1.0`, a request record whose third field is a numeral
above the `int64` range, after a request record with timestamp `1`, is delayed
by `2^63 - 2`; and a request record whose third field is not a numeral, after a
request record with timestamp `-5`, is delayed by `5`. Both durations handed to
the suspend call are positive. -/
theorem unparsed_timestamp_delays :
    emit sampleFormat (fun _ => worldOf [(logA, ascii "1 a 1\n#\n1 b 9223372036854775808\n#\n")])
        (atFile logA (ascii "1 a 1\n#\n1 b 9223372036854775808\n#\n")) 5 =
      (Halt.finished, [Event.send (ascii "1 a 1"), Event.sleep 9223372036854775806,
        Event.send (ascii "1 b 9223372036854775808")]) ∧
    ParseInt (ascii "9223372036854775808") = (9223372036854775807, true) ∧
    emit sampleFormat (fun _ => worldOf [(logA, ascii "1 a -5\n#\n1 b soon\n#\n")])
        (atFile logA (ascii "1 a -5\n#\n1 b soon\n#\n")) 5 =
      (Halt.finished, [Event.send (ascii "1 a -5"), Event.sleep 5,
        Event.send (ascii "1 b soon")]) ∧
    ParseInt (ascii "soon") = (0, true) := by
  refine ⟨by decide, by decide, by decide, by decide⟩

/-- C7, amended: a request record (at least three fields) whose third field is
malformed, so that `ParseInt` returns `0` with an error (text that is not a
numeral, or empty text), met with a stored previous timestamp `lt` that is not
negative, under a speed factor of `1.0` or one whose rescaling keeps a
non-positive duration non-positive: `emit` delivers the record, the duration it
hands to the suspend call, if any, is `-lt` (rescaled), which is not positive,
and `lastTime` becomes `0`. -/
theorem emit_malformed_timestamp (fmt : Format) (env : Nat → World) (cf : Option OsFile)
    (sf : SpeedFactor) (br : Bool) (t : Byte) (sentinel : List Byte)
    (ls : List (List Byte)) (lt : Int) (n : Nat) (rest : List Byte) (k : Nat)
    (hsep : fmt.payloadSeparator = t :: sentinel) (hsl : IsLine sentinel)
    (hls : ∀ l ∈ ls, IsLine l ∧ l ≠ sentinel) (hne : ls.flatten ≠ [])
    (hreq : isRequest fmt (fmt.payloadMeta ls.flatten) = some true)
    (hts : ParseInt ((fmt.payloadMeta ls.flatten).getD 2 []) = (0, true))
    (hlt0 : 0 ≤ lt) (hlt1 : lt < 2 ^ 63)
    (hsf : sf.isOne = true ∨ ∀ x : Int, x ≤ 0 → sf.scale x ≤ 0) :
    emitLoop fmt env (ls.length + (k + 1))
        ⟨⟨cf, some ⟨ls.flatten ++ (sentinel ++ rest), br⟩, sf⟩, lt, [], n⟩ =
      ((emitLoop fmt env k ⟨⟨cf, some ⟨rest, br⟩, sf⟩, 0, [], n⟩).1,
       (if lt ≠ 0 then [Event.sleep (if sf.isOne then -lt else sf.scale (-lt))] else []) ++
         [Event.send ls.flatten.dropLast] ++
       (emitLoop fmt env k ⟨⟨cf, some ⟨rest, br⟩, sf⟩, 0, [], n⟩).2) ∧
    (if sf.isOne then -lt else sf.scale (-lt)) ≤ 0 := by
  have e := emitLoop_record fmt env cf sf br t sentinel hsep hsl ls hls lt [] n
    rest k true (by simpa using hne) (by simpa using hreq)
  simp only [List.nil_append, if_true] at e
  have hw : wrap64 (0 - lt) = -lt := by
    rw [wrap64_of_range (0 - lt) (by omega) (by omega)]; omega
  have hp := pace_eq sf lt 0 (fmt.payloadMeta ls.flatten) (by rw [hts])
  rw [hw] at hp
  rw [e, hp]
  refine ⟨rfl, ?_⟩
  rcases hsf with h | h
  · rw [h]; simp only [if_true]; omega
  · split_ifs
    · omega
    · exact h (-lt) (by omega)

theorem emit_passthrough_witness :
    emitLoop sampleFormat (fun _ => worldOf []) (2 + (0 + 1))
        ⟨⟨none, some ⟨[ascii "2 b 20\n", ascii "Y\n"].flatten ++ (ascii "#\n" ++ []), false⟩,
          realTime⟩, 7, [], 0⟩ =
      (Halt.outOfFuel, [Event.send (ascii "2 b 20\nY")]) :=
  (emit_passthrough sampleFormat (fun _ => worldOf []) none realTime false 10 (ascii "#\n")
    [ascii "2 b 20\n", ascii "Y\n"] 7 0 [] 0 (by decide) (by decide) (by decide) (by decide)
    (Or.inr ⟨50, [], [ascii "b", ascii "20"], by decide, by decide⟩)).2.trans (by decide)

theorem emit_malformed_timestamp_witness :
    emitLoop sampleFormat (fun _ => worldOf []) (1 + (0 + 1))
        ⟨⟨none, some ⟨[ascii "1 b soon\n"].flatten ++ (ascii "#\n" ++ []), false⟩,
          realTime⟩, 5, [], 0⟩ =
      (Halt.outOfFuel, [Event.sleep (-5), Event.send (ascii "1 b soon")]) :=
  (emit_malformed_timestamp sampleFormat (fun _ => worldOf []) none realTime false 10
    (ascii "#\n") [ascii "1 b soon\n"] 5 0 [] 0 (by decide) (by decide) (by decide)
    (by decide) (by decide) (by decide) (by decide) (by decide)
    (Or.inl rfl)).1.trans (by decide)

/-! ## Framing of a stream of sections -/

theorem sends_append (a b : List Event) : sends (a ++ b) = sends a ++ sends b := by
  induction a with
  | nil => rfl
  | cons e es ih => cases e <;> simp [sends, ih]

theorem sends_pace (sf : SpeedFactor) (lt : Int) (fields : List (List Byte)) :
    sends (pace sf lt fields).1 = [] := by
  unfold pace
  split_ifs <;> rfl

/-- Metadata whose first field is not empty, or that has at most two fields,
keeps `meta[0][0]` in range. -/
theorem isRequest_in_range (fmt : Format) (b : List Byte)
    (hmeta : ∀ f fs, fmt.payloadMeta b = f :: fs → 2 < (f :: fs).length → f ≠ []) :
    ∃ req, isRequest fmt (fmt.payloadMeta b) = some req := by
  unfold isRequest
  split_ifs with h
  · rcases hf : fmt.payloadMeta b with _ | ⟨f, fs⟩
    · rw [hf] at h; simp at h
    · have hne := hmeta f fs hf (by rw [hf] at h; exact h)
      rcases f with _ | ⟨tag, f0⟩
      · exact absurd rfl hne
      · exact ⟨decide (tag = fmt.RequestPayload), by simp [hf]⟩
  · exact ⟨false, rfl⟩

theorem flatten_lines_ne_nil (ls : List (List Byte)) (hne : ls ≠ [])
    (hls : ∀ l ∈ ls, IsLine l) : ls.flatten ≠ [] := by
  rcases ls with _ | ⟨l, ls⟩
  · exact absurd rfl hne
  · have hl := hls l (List.mem_cons_self l ls)
    intro h
    have : l = [] := by
      have := congrArg List.length h
      simp only [List.flatten_cons, List.length_append, List.length_nil] at this
      exact List.length_eq_zero.mp (by omega)
    rw [this] at hl
    cases hl.1

/-- The run over sections, each followed by the sentinel line, entered with an
empty buffer: one record per section, in order, then the run on what follows. -/
theorem emitLoop_sections (fmt : Format) (env : Nat → World) (cf : Option OsFile)
    (sf : SpeedFactor) (br : Bool) (t : Byte) (sentinel : List Byte)
    (hsep : fmt.payloadSeparator = t :: sentinel) (hsl : IsLine sentinel)
    (n : Nat) (rest : List Byte) (k : Nat) :
    ∀ (sections : List (List (List Byte))),
      (∀ sec ∈ sections, sec ≠ [] ∧ ∀ l ∈ sec, IsLine l ∧ l ≠ sentinel) →
      (∀ sec ∈ sections, ∀ f fs, fmt.payloadMeta sec.flatten = f :: fs →
        2 < (f :: fs).length → f ≠ []) →
      ∀ (lt : Int), ∃ lt1 : Int,
        (emitLoop fmt env (lineCount sections + k)
          ⟨⟨cf, some ⟨streamOf sentinel sections ++ rest, br⟩, sf⟩, lt, [], n⟩).1 =
          (emitLoop fmt env k ⟨⟨cf, some ⟨rest, br⟩, sf⟩, lt1, [], n⟩).1 ∧
        sends (emitLoop fmt env (lineCount sections + k)
          ⟨⟨cf, some ⟨streamOf sentinel sections ++ rest, br⟩, sf⟩, lt, [], n⟩).2 =
          sections.map (fun sec => sec.flatten.dropLast) ++
            sends (emitLoop fmt env k ⟨⟨cf, some ⟨rest, br⟩, sf⟩, lt1, [], n⟩).2 := by
  intro sections
  induction sections with
  | nil =>
    intro _ _ lt
    exact ⟨lt, by simp [lineCount, streamOf], by simp [lineCount, streamOf]⟩
  | cons sec secs ih =>
    intro hsec hmeta lt
    have h1 := hsec sec (List.mem_cons_self sec secs)
    have hne : sec.flatten ≠ [] := flatten_lines_ne_nil sec h1.1 (fun l hl => (h1.2 l hl).1)
    obtain ⟨req, hreq⟩ := isRequest_in_range fmt sec.flatten
      (hmeta sec (List.mem_cons_self sec secs))
    have hk : lineCount (sec :: secs) + k = sec.length + ((lineCount secs + k) + 1) := by
      simp only [lineCount, List.map_cons, List.sum_cons]; omega
    have hst : streamOf sentinel (sec :: secs) ++ rest =
        sec.flatten ++ (sentinel ++ (streamOf sentinel secs ++ rest)) := by
      simp [streamOf, List.append_assoc]
    have e := emitLoop_record fmt env cf sf br t sentinel hsep hsl sec h1.2 lt [] n
      (streamOf sentinel secs ++ rest) (lineCount secs + k) req
      (by simpa using hne) (by simpa using hreq)
    simp only [List.nil_append] at e
    obtain ⟨lt1, ha, hb⟩ := ih (fun s hs => hsec s (List.mem_cons_of_mem sec hs))
      (fun s hs => hmeta s (List.mem_cons_of_mem sec hs))
      (if req then pace sf lt (fmt.payloadMeta sec.flatten) else ([], lt)).2
    refine ⟨lt1, ?_, ?_⟩
    · rw [hk, hst, e]; exact ha
    · rw [hk, hst, e]
      simp only [sends_append, hb, List.map_cons]
      have hp : sends (if req then pace sf lt (fmt.payloadMeta sec.flatten)
          else ([], lt)).1 = [] := by
        split_ifs
        · exact sends_pace _ _ _
        · rfl
      rw [hp]
      simp [sends]

/-- At end of input, a call of `updateFile` that returns an error ends the loop
with no event. -/
theorem emitLoop_eof_err (fmt : Format) (env : Nat → World) (cf : Option OsFile)
    (sf : SpeedFactor) (lt : Int) (buf : List Byte) (n : Nat) (k : Nat) (j : FileInput)
    (h : (updateFile (env n) ⟨cf, some ⟨[], false⟩, sf⟩).result = .err j) :
    emitLoop fmt env (k + 1) ⟨⟨cf, some ⟨[], false⟩, sf⟩, lt, buf, n⟩ = (Halt.finished, []) := by
  simp [emitLoop, emitIter, readBytes, cutLine, h]

/-- C2: a single-file stream of `N` sections, each a non-empty list of lines
other than the sentinel line and each followed by the sentinel line, where the
metadata parser yields no empty first field (it is enough that it yields none
together with more than two fields, on the sections of the stream): `emit` ends
its loop normally, and the records it sends are, in stream order, the sections
without their final line terminator: exactly `N` of them. -/
theorem emit_frames_sections (fmt : Format) (env : Nat → World) (cur : OsFile)
    (sf : SpeedFactor) (t : Byte) (sentinel : List Byte)
    (sections : List (List (List Byte))) (k : Nat)
    (hsep : fmt.payloadSeparator = t :: sentinel) (hsl : IsLine sentinel)
    (hsec : ∀ sec ∈ sections, sec ≠ [] ∧ ∀ l ∈ sec, IsLine l ∧ l ≠ sentinel)
    (hmeta : ∀ sec ∈ sections, ∀ f fs, fmt.payloadMeta sec.flatten = f :: fs →
      2 < (f :: fs).length → f ≠ [])
    (hglob : (env 0).glob = some [cur.name]) :
    (emit fmt env ⟨some cur, some ⟨streamOf sentinel sections, false⟩, sf⟩
        (lineCount sections + (k + 1))).1 = Halt.finished ∧
    sends (emit fmt env ⟨some cur, some ⟨streamOf sentinel sections, false⟩, sf⟩
        (lineCount sections + (k + 1))).2 = sections.map (fun sec => sec.flatten.dropLast) ∧
    (sends (emit fmt env ⟨some cur, some ⟨streamOf sentinel sections, false⟩, sf⟩
        (lineCount sections + (k + 1))).2).length = sections.length := by
  obtain ⟨lt1, ha, hb⟩ := emitLoop_sections fmt env (some cur) sf false t sentinel hsep hsl
    0 [] (k + 1) sections hsec hmeta 0
  have hend := emitLoop_eof_err fmt env (some cur) sf lt1 [] 0 k _
    (updateFile_no_newer (env 0) ⟨some cur, some ⟨[], false⟩, sf⟩ [cur.name] cur hglob
      (by simp) (by simp) rfl (Or.inl (by simp))).1
  simp only [List.append_nil] at ha hb
  rw [hend] at ha hb
  unfold emit
  refine ⟨ha, by simpa [sends] using hb, ?_⟩
  rw [hb]
  simp [sends]

theorem emit_frames_sections_witness :
    sends (emit sampleFormat (fun _ => worldOf [(logA, [])])
        ⟨some ⟨logA, ⟨[], false⟩⟩, some ⟨streamOf (ascii "#\n")
          [[ascii "1 a 10\n", ascii "X\n"], [ascii "2 b\n"]], false⟩, realTime⟩
        (lineCount [[ascii "1 a 10\n", ascii "X\n"], [ascii "2 b\n"]] + (0 + 1))).2 =
      [ascii "1 a 10\nX", ascii "2 b"] :=
  (emit_frames_sections sampleFormat (fun _ => worldOf [(logA, [])]) ⟨logA, ⟨[], false⟩⟩
    realTime 10 (ascii "#\n") [[ascii "1 a 10\n", ascii "X\n"], [ascii "2 b\n"]] 0
    (by decide) (by decide) (by decide)
    (by
      intro sec hsec f fs hf _
      simp only [List.mem_cons, List.mem_singleton, List.not_mem_nil, or_false] at hsec
      rcases hsec with h | h
      · subst h
        have e : sampleFormat.payloadMeta [ascii "1 a 10\n", ascii "X\n"].flatten =
            [ascii "1", ascii "a", ascii "10"] := by decide
        rw [e] at hf
        injection hf with h1 _
        rw [← h1]; decide
      · subst h
        have e : sampleFormat.payloadMeta [ascii "2 b\n"].flatten =
            [ascii "2", ascii "b"] := by decide
        rw [e] at hf
        injection hf with h1 _
        rw [← h1]; decide)
    rfl).2.1.trans (by decide)

/-! ## An incomplete record at the end of a file -/

/-- At end of input, a call of `updateFile` that returns `nil` lets the loop go
on with the new reader, `lastTime` and the buffer as they were. -/
theorem emitLoop_eof_ok (fmt : Format) (env : Nat → World) (cf : Option OsFile)
    (sf : SpeedFactor) (lt : Int) (buf : List Byte) (n : Nat) (k : Nat) (i2 : FileInput)
    (h : (updateFile (env n) ⟨cf, some ⟨[], false⟩, sf⟩).result = .ok i2) :
    emitLoop fmt env (k + 1) ⟨⟨cf, some ⟨[], false⟩, sf⟩, lt, buf, n⟩ =
      emitLoop fmt env k ⟨i2, lt, buf, n + 1⟩ := by
  simp [emitLoop, emitIter, readBytes, cutLine, h]

/-- C6: the first file ends with the lines `1 a 10` and `X`, with no sentinel
line after them; the second file holds the section `1 b 20`, `Y`. The only
record sent is `1 a 10\nX\n1 b 20\nY`: the bytes of the incomplete record are
delivered, ahead of the second file's first section. -/
theorem incomplete_record_is_kept :
    emit sampleFormat (fun _ => cutShort) (atFile logA (ascii "1 a 10\nX\n")) 7 =
      (Halt.finished, [Event.send (ascii "1 a 10\nX\n1 b 20\nY")]) ∧
    ascii "1 a 10\nX\n1 b 20\nY" ≠ ascii "1 b 20\nY" := by
  refine ⟨by decide, by decide⟩

/-- C6, amended: the first file holds sections, each followed by the sentinel
line, and ends with one or more lines other than the sentinel line; rotation to
the second file succeeds, and the second file is the last. The lines of the
incomplete record stay in the buffer across the rotation: the first record sent
after it is those lines followed by the second file's first section, without
the final line terminator; the other records are the sections of either file. -/
theorem emit_carries_incomplete (fmt : Format) (env : Nat → World) (cur1 cur2 : OsFile)
    (sf : SpeedFactor) (t : Byte) (sentinel : List Byte)
    (secs1 secs2 : List (List (List Byte))) (trailing sec2 : List (List Byte)) (k : Nat)
    (j : FileInput)
    (hsep : fmt.payloadSeparator = t :: sentinel) (hsl : IsLine sentinel)
    (hsec1 : ∀ sec ∈ secs1, sec ≠ [] ∧ ∀ l ∈ sec, IsLine l ∧ l ≠ sentinel)
    (hsec2 : ∀ sec ∈ secs2, sec ≠ [] ∧ ∀ l ∈ sec, IsLine l ∧ l ≠ sentinel)
    (htr : ∀ l ∈ trailing, IsLine l ∧ l ≠ sentinel) (htrne : trailing ≠ [])
    (hfirst : ∀ l ∈ sec2, IsLine l ∧ l ≠ sentinel)
    (hmeta1 : ∀ sec ∈ secs1, ∀ f fs, fmt.payloadMeta sec.flatten = f :: fs →
      2 < (f :: fs).length → f ≠ [])
    (hmeta2 : ∀ sec ∈ secs2, ∀ f fs, fmt.payloadMeta sec.flatten = f :: fs →
      2 < (f :: fs).length → f ≠ [])
    (hmeta : ∀ f fs, fmt.payloadMeta (trailing.flatten ++ sec2.flatten) = f :: fs →
      2 < (f :: fs).length → f ≠ [])
    (hrot : (updateFile (env 0) ⟨some cur1, some ⟨[], false⟩, sf⟩).result =
      .ok ⟨some cur2, some ⟨streamOf sentinel (sec2 :: secs2), false⟩, sf⟩)
    (hend : (updateFile (env 1) ⟨some cur2, some ⟨[], false⟩, sf⟩).result = .err j) :
    (emit fmt env ⟨some cur1, some ⟨streamOf sentinel secs1 ++ trailing.flatten, false⟩, sf⟩
      (lineCount secs1 + (trailing.length +
        ((sec2.length + ((lineCount secs2 + (k + 1)) + 1)) + 1)))).1 = Halt.finished ∧
    sends (emit fmt env
      ⟨some cur1, some ⟨streamOf sentinel secs1 ++ trailing.flatten, false⟩, sf⟩
      (lineCount secs1 + (trailing.length +
        ((sec2.length + ((lineCount secs2 + (k + 1)) + 1)) + 1)))).2 =
      secs1.map (fun sec => sec.flatten.dropLast) ++
        ((trailing.flatten ++ sec2.flatten).dropLast ::
          secs2.map (fun sec => sec.flatten.dropLast)) := by
  have htrf : trailing.flatten ≠ [] :=
    flatten_lines_ne_nil trailing htrne (fun l hl => (htr l hl).1)
  obtain ⟨req, hreq⟩ := isRequest_in_range fmt (trailing.flatten ++ sec2.flatten) hmeta
  -- the run from the end of the first file's sections, whatever `lastTime` is
  have tail : ∀ lt : Int,
      (emitLoop fmt env (trailing.length +
          ((sec2.length + ((lineCount secs2 + (k + 1)) + 1)) + 1))
        ⟨⟨some cur1, some ⟨trailing.flatten, false⟩, sf⟩, lt, [], 0⟩).1 = Halt.finished ∧
      sends (emitLoop fmt env (trailing.length +
          ((sec2.length + ((lineCount secs2 + (k + 1)) + 1)) + 1))
        ⟨⟨some cur1, some ⟨trailing.flatten, false⟩, sf⟩, lt, [], 0⟩).2 =
        (trailing.flatten ++ sec2.flatten).dropLast ::
          secs2.map (fun sec => sec.flatten.dropLast) := by
    intro lt
    have e1 := emitLoop_lines fmt env (some cur1) sf false t sentinel hsep trailing htr lt []
      0 [] ((sec2.length + ((lineCount secs2 + (k + 1)) + 1)) + 1)
    simp only [List.append_nil, List.nil_append] at e1
    have e2 := emitLoop_eof_ok fmt env (some cur1) sf lt trailing.flatten 0
      (sec2.length + ((lineCount secs2 + (k + 1)) + 1)) _ hrot
    have hst : streamOf sentinel (sec2 :: secs2) =
        sec2.flatten ++ (sentinel ++ (streamOf sentinel secs2 ++ [])) := by
      simp [streamOf, List.append_assoc]
    have e3 := emitLoop_record fmt env (some cur2) sf false t sentinel hsep hsl sec2 hfirst lt
      trailing.flatten (0 + 1) (streamOf sentinel secs2 ++ []) (lineCount secs2 + (k + 1)) req
      (by simp [htrf]) hreq
    obtain ⟨lt1, ha, hb⟩ := emitLoop_sections fmt env (some cur2) sf false t sentinel hsep hsl
      (0 + 1) [] (k + 1) secs2 hsec2 hmeta2
      (if req then pace sf lt (fmt.payloadMeta (trailing.flatten ++ sec2.flatten))
        else ([], lt)).2
    have hfin := emitLoop_eof_err fmt env (some cur2) sf lt1 [] (0 + 1) k j hend
    rw [hfin] at ha hb
    rw [e1, e2, hst, e3]
    refine ⟨ha, ?_⟩
    simp only [sends_append, hb]
    have hp : sends (if req then pace sf lt (fmt.payloadMeta (trailing.flatten ++ sec2.flatten))
        else ([], lt)).1 = [] := by
      split_ifs
      · exact sends_pace _ _ _
      · rfl
    rw [hp]
    simp [sends]
  obtain ⟨lt1, ha, hb⟩ := emitLoop_sections fmt env (some cur1) sf false t sentinel hsep hsl
    0 trailing.flatten (trailing.length +
      ((sec2.length + ((lineCount secs2 + (k + 1)) + 1)) + 1)) secs1 hsec1 hmeta1 0
  unfold emit
  rw [ha, hb, (tail lt1).1, (tail lt1).2]
  exact ⟨rfl, rfl⟩

theorem emit_carries_incomplete_witness :
    sends (emit sampleFormat (fun _ => cutShort)
      ⟨some ⟨logA, ⟨ascii "1 a 10\nX\n", false⟩⟩,
        some ⟨streamOf (ascii "#\n") [] ++ [ascii "1 a 10\n", ascii "X\n"].flatten, false⟩,
        realTime⟩
      (lineCount [] + (2 + ((2 + ((lineCount [] + (0 + 1)) + 1)) + 1)))).2 =
      [ascii "1 a 10\nX\n1 b 20\nY"] :=
  (emit_carries_incomplete sampleFormat (fun _ => cutShort)
    ⟨logA, ⟨ascii "1 a 10\nX\n", false⟩⟩ ⟨logB, ⟨ascii "1 b 20\nY\n#\n", false⟩⟩
    realTime 10 (ascii "#\n") [] [] [ascii "1 a 10\n", ascii "X\n"]
    [ascii "1 b 20\n", ascii "Y\n"] 0
    ⟨some ⟨logB, ⟨ascii "1 b 20\nY\n#\n", false⟩⟩, some ⟨[], false⟩, realTime⟩
    (by decide) (by decide) (by decide) (by decide) (by decide) (by decide) (by decide)
    (by simp) (by simp)
    (by
      intro f fs hf _
      have e : sampleFormat.payloadMeta ([ascii "1 a 10\n", ascii "X\n"].flatten ++
          [ascii "1 b 20\n", ascii "Y\n"].flatten) = [ascii "1", ascii "a", ascii "10"] := by
        decide
      rw [e] at hf
      injection hf with h1 _
      rw [← h1]; decide)
    rfl rfl).2.trans (by decide)

/-! ## The length given to `make` -/

theorem readBytes_noerr (r : ByteStream) (line : List Byte) (r1 : ByteStream)
    (h : readBytes newline r = (line, none, r1)) : IsLine line := by
  unfold readBytes at h
  rcases hc : cutLine newline r.bytes with _ | ⟨l, rest⟩
  · rw [hc] at h; simp at h
  · rw [hc] at h
    simp only [Prod.mk.injEq, true_and] at h
    rw [← h.1]
    exact (cutLine_some _ _ _ hc).1

theorem frame_next_buffer (fmt : Format) (st : EmitState) (i1 : FileInput) (s1 : EmitState)
    (evs : List Event) (h : frame fmt st i1 = .next s1 evs) : s1.buffer = [] := by
  unfold frame at h
  rcases hq : isRequest fmt (fmt.payloadMeta st.buffer) with _ | req
  · simp [hq] at h
  · simp only [hq] at h
    by_cases hl : (st.buffer.length : Int) - 1 < 0
    · rw [if_pos hl] at h; cases h
    · rw [if_neg hl] at h
      injection h with h1 _
      rw [← h1]

/-- The framing branch gives `make` a negative length exactly on an empty
buffer, when `meta[0][0]` is in range for the empty buffer. -/
theorem frame_negative_iff (fmt : Format) (st : EmitState) (i1 : FileInput)
    (hmeta : isRequest fmt (fmt.payloadMeta []) ≠ none) :
    (∃ evs, frame fmt st i1 = .halt .negativeLen evs) ↔ st.buffer = [] := by
  constructor
  · rintro ⟨evs, h⟩
    unfold frame at h
    rcases hq : isRequest fmt (fmt.payloadMeta st.buffer) with _ | req
    · simp [hq] at h
    · simp only [hq] at h
      by_cases hl : (st.buffer.length : Int) - 1 < 0
      · have : st.buffer.length = 0 := by omega
        exact List.length_eq_zero.mp this
      · rw [if_neg hl] at h; cases h
  · intro hb
    exact (frame_empty fmt st i1 hb).mpr hmeta

/-- One iteration keeps the buffer equal to the lines read since the last
sentinel line. -/
theorem emitIter_pending (fmt : Format) (env : Nat → World) (s s1 : EmitState)
    (evs : List Event) (ls : List (List Byte))
    (h : emitIter fmt env s = .next s1 evs) (hb : s.buffer = ls.flatten)
    (hl : ∀ l ∈ ls, IsLine l) :
    s1.buffer = (match lineRead s with
      | none => ls
      | some l => if fmt.payloadSeparator.tail = l then [] else ls ++ [l]).flatten ∧
    ∀ l ∈ (match lineRead s with
      | none => ls
      | some l => if fmt.payloadSeparator.tail = l then [] else ls ++ [l]), IsLine l := by
  unfold emitIter at h
  unfold lineRead
  rcases hr : s.i.currentReader with _ | r
  · simp [hr] at h
  · rcases hrb : readBytes newline r with ⟨line, e, r1⟩
    simp only [hr, hrb] at h ⊢
    rcases e with _ | e
    · have hline := readBytes_noerr r line r1 hrb
      simp only at h ⊢
      rcases hsep : fmt.payloadSeparator with _ | ⟨t, sentinel⟩
      · simp [hsep] at h
      · simp only [hsep, List.tail_cons] at h ⊢
        split_ifs at h ⊢ with hs
        · exact ⟨by simpa using frame_next_buffer fmt _ _ _ _ h, by simp⟩
        · injection h with h1 _
          rw [← h1]
          refine ⟨by simp [hb], ?_⟩
          intro l hm
          rcases List.mem_append.mp hm with h2 | h2
          · exact hl l h2
          · simp only [List.mem_singleton] at h2
            exact h2 ▸ hline
    · cases e
      · simp only at h ⊢
        split at h
        · injection h with h1 _
          rw [← h1]
          exact ⟨hb, hl⟩
        · cases h
        · cases h
        · cases h
      · simp at h

theorem flatten_lines_getLast (ls : List (List Byte)) (hne : ls ≠ [])
    (hls : ∀ l ∈ ls, IsLine l) : ls.flatten.getLast? = some newline := by
  rcases List.eq_nil_or_concat ls with h | ⟨init, l, h⟩
  · exact absurd h hne
  · have hl : IsLine l := hls l (by rw [h]; simp)
    rw [h, List.concat_eq_append, List.flatten_append, hl.eq_append]
    simp [List.getLast?_append]

/-- Along the loop entered with an empty buffer, the buffer is the concatenation
of the lines read since the last sentinel line. -/
theorem pending_buffer (fmt : Format) (env : Nat → World) (st0 : EmitState)
    (h0 : st0.buffer = []) :
    ∀ (n : Nat) (s : EmitState) (ls : List (List Byte)),
      pending fmt env n st0 = some (s, ls) →
      s.buffer = ls.flatten ∧ ∀ l ∈ ls, IsLine l := by
  intro n
  induction n with
  | zero =>
    intro s ls h
    simp only [pending, Option.some.injEq, Prod.mk.injEq] at h
    rw [← h.1, ← h.2]
    exact ⟨h0, by simp⟩
  | succ n ih =>
    intro s ls h
    rw [pending] at h
    rcases hp : pending fmt env n st0 with _ | ⟨s0, ls0⟩
    · rw [hp] at h; cases h
    · rw [hp] at h
      simp only at h
      rcases hi : emitIter fmt env s0 with ⟨s1, evs⟩ | ⟨hh, evs⟩
      · rw [hi] at h
        simp only [Option.some.injEq, Prod.mk.injEq] at h
        obtain ⟨hb, hl⟩ := ih s0 ls0 hp
        have := emitIter_pending fmt env s0 s1 evs ls0 hi hb hl
        rw [← h.1, ← h.2]
        exact this
      · rw [hi] at h; cases h

/-- An iteration gives `make` a negative length exactly when it reads the
sentinel line on an empty buffer. -/
theorem emitIter_negative_iff (fmt : Format) (env : Nat → World) (s : EmitState)
    (hmeta : isRequest fmt (fmt.payloadMeta []) ≠ none) :
    (∃ evs, emitIter fmt env s = .halt .negativeLen evs) ↔
      ((∃ t l, fmt.payloadSeparator = t :: l ∧ lineRead s = some l) ∧ s.buffer = []) := by
  rcases hr : s.i.currentReader with _ | r
  · simp [emitIter, lineRead, hr]
  · rcases hrb : readBytes newline r with ⟨line, e, r1⟩
    rcases e with _ | e
    · rcases hsep : fmt.payloadSeparator with _ | ⟨t, sentinel⟩
      · simp [emitIter, lineRead, hr, hrb, hsep]
      · by_cases hs : sentinel = line
        · simp only [emitIter, lineRead, hr, hrb, hsep, if_pos hs]
          rw [frame_negative_iff fmt _ _ hmeta]
          constructor
          · intro hb; exact ⟨⟨t, line, by rw [hs], rfl⟩, hb⟩
          · intro hb; exact hb.2
        · simp only [emitIter, lineRead, hr, hrb, hsep, if_neg hs]
          constructor
          · rintro ⟨evs, h⟩; cases h
          · rintro ⟨⟨t1, l, h1, h2⟩, _⟩
            simp only [List.cons.injEq, Option.some.injEq] at h1 h2
            exact absurd (h1.2.trans h2.symm) hs
    · cases e
      · simp only [emitIter, lineRead, hr, hrb]
        constructor
        · rintro ⟨evs, h⟩
          split at h <;> cases h
        · rintro ⟨⟨t1, l, _, h2⟩, _⟩
          cases h2
      · simp [emitIter, lineRead, hr, hrb]

/-- C10: at every state the loop of `emit` reaches from its start, when the
metadata parser keeps `meta[0][0]` in range on the empty buffer: the iteration
gives `make` a negative length if and only if it reads the sentinel line while
no other line has been read since the previous sentinel line, or since the
start; the buffer is the concatenation of those lines, so it is empty exactly
when there is none, and when it is not empty its last byte is the line
terminator. -/
theorem make_negative_iff (fmt : Format) (env : Nat → World) (i : FileInput) (n : Nat)
    (s : EmitState) (ls : List (List Byte))
    (hmeta : ∀ f fs, fmt.payloadMeta [] = f :: fs → 2 < (f :: fs).length → f ≠ [])
    (hp : pending fmt env n ⟨i, 0, [], 0⟩ = some (s, ls)) :
    ((∃ evs, emitIter fmt env s = .halt .negativeLen evs) ↔
      ((∃ t l, fmt.payloadSeparator = t :: l ∧ lineRead s = some l) ∧ ls = [])) ∧
    s.buffer = ls.flatten ∧
    (s.buffer = [] ↔ ls = []) ∧
    (s.buffer ≠ [] → s.buffer.getLast? = some newline) := by
  obtain ⟨hb, hl⟩ := pending_buffer fmt env ⟨i, 0, [], 0⟩ rfl n s ls hp
  have hmeta1 : isRequest fmt (fmt.payloadMeta []) ≠ none := by
    obtain ⟨req, hreq⟩ := isRequest_in_range fmt [] hmeta
    rw [hreq]; simp
  have hiff : s.buffer = [] ↔ ls = [] := by
    constructor
    · intro h
      by_contra hne
      exact flatten_lines_ne_nil ls hne hl (hb ▸ h)
    · intro h; rw [hb, h]; rfl
  refine ⟨?_, hb, hiff, ?_⟩
  · rw [emitIter_negative_iff fmt env s hmeta1, hiff]
  · intro hne
    rw [hb]
    exact flatten_lines_getLast ls (fun h => hne (hiff.mpr h)) hl

theorem make_negative_iff_witness :
    (∃ evs, emitIter sampleFormat (fun _ => worldOf [(logA, ascii "X\n#\n#\n")])
      ⟨⟨some ⟨logA, ⟨ascii "X\n#\n#\n", false⟩⟩, some ⟨ascii "#\n", false⟩, realTime⟩,
        0, [], 0⟩ = .halt .negativeLen evs) ∧
    emit sampleFormat (fun _ => worldOf [(logA, ascii "X\n#\n#\n")])
      (atFile logA (ascii "X\n#\n#\n")) 4 = (Halt.negativeLen, [Event.send (ascii "X")]) :=
  ⟨(make_negative_iff sampleFormat (fun _ => worldOf [(logA, ascii "X\n#\n#\n")])
      (atFile logA (ascii "X\n#\n#\n")) 2
      ⟨⟨some ⟨logA, ⟨ascii "X\n#\n#\n", false⟩⟩, some ⟨ascii "#\n", false⟩, realTime⟩,
        0, [], 0⟩ []
      (by
        intro f fs hf hlen
        have e : sampleFormat.payloadMeta [] = [[]] := by decide
        rw [e] at hf
        injection hf with _ h2
        rw [← h2] at hlen
        simp at hlen)
      rfl).1.mpr ⟨⟨10, ascii "#\n", rfl, rfl⟩, rfl⟩,
   by decide⟩

/-! ## Rounding in `float64` -/

theorem log2Fuel_spec : ∀ (fuel n : Nat), n ≤ fuel → 1 ≤ n →
    2 ^ log2Fuel fuel n ≤ n ∧ n < 2 ^ (log2Fuel fuel n + 1) := by
  intro fuel
  induction fuel with
  | zero => intro n h1 h2; omega
  | succ fuel ih =>
    intro n h1 h2
    rw [log2Fuel]
    split_ifs with h
    · obtain ⟨ha, hb⟩ := ih (n / 2) (by omega) (by omega)
      rw [pow_succ] at hb ⊢
      rw [pow_succ]
      constructor <;> omega
    · simp only [pow_zero, zero_add, pow_one]
      omega

theorem ilog2_spec (n : Nat) (h : 1 ≤ n) : 2 ^ ilog2 n ≤ n ∧ n < 2 ^ (ilog2 n + 1) :=
  log2Fuel_spec n n (le_refl n) h

theorem ilog2_unique (n j : Nat) (h1 : 2 ^ j ≤ n) (h2 : n < 2 ^ (j + 1)) : ilog2 n = j := by
  have hn : 1 ≤ n := le_trans (Nat.one_le_two_pow) h1
  obtain ⟨ha, hb⟩ := ilog2_spec n hn
  have c1 : ilog2 n < j + 1 := (Nat.pow_lt_pow_iff_right (by norm_num)).mp (lt_of_le_of_lt ha h2)
  have c2 : j < ilog2 n + 1 := (Nat.pow_lt_pow_iff_right (by norm_num)).mp (lt_of_le_of_lt h1 hb)
  omega

/-- An integer below `2^53` is a `float64`: rounding leaves it as it is. -/
theorem round53_nat (a : Nat) (h0 : 1 ≤ a) (h : a < 2 ^ 53) :
    round53 a 1 = (a * 2 ^ (52 - ilog2 a), (ilog2 a : Int) - 52) := by
  obtain ⟨ha, hb⟩ := ilog2_spec a h0
  have hla : ilog2 a < 53 := (Nat.pow_lt_pow_iff_right (by norm_num)).mp (lt_of_le_of_lt ha h)
  have h1 : ilog2 1 = 0 := by decide
  have e1 : ((ilog2 a : Int) - (0 : Nat)).toNat = ilog2 a := by omega
  have e2 : (-((ilog2 a : Int) - (0 : Nat))).toNat = 0 := by omega
  have e3 : (-((ilog2 a : Int) - (0 : Nat) - 52)).toNat = 52 - ilog2 a := by omega
  have e4 : ((ilog2 a : Int) - (0 : Nat) - 52).toNat = 0 := by omega
  have hc : 1 * 2 ^ ilog2 a ≤ a * 2 ^ 0 := by simpa using ha
  simp only [round53, h1, e1, e2, if_pos hc, e3, e4]
  simp [Nat.mod_one]

/-- At a speed factor `2^k` a difference below `2^53` in size is divided
exactly: the result is the quotient by `2^k`, truncated toward zero. -/
theorem scaleFloat_pow2 (k : Nat) (undef : Int → Int) (d : Int)
    (h : d.natAbs < 2 ^ 53) :
    scaleFloat (.finite false 1 (k : Int)) undef d = d.tdiv (2 ^ k) := by
  by_cases hd : d = 0
  · subst hd; simp [scaleFloat]
  · have h0 : 1 ≤ d.natAbs := by omega
    obtain ⟨ha, hb⟩ := ilog2_spec d.natAbs h0
    have hla : ilog2 d.natAbs < 53 :=
      (Nat.pow_lt_pow_iff_right (by norm_num)).mp (lt_of_le_of_lt ha h)
    have hA1 : 2 ^ 52 ≤ d.natAbs * 2 ^ (52 - ilog2 d.natAbs) := by
      calc 2 ^ 52 = 2 ^ ilog2 d.natAbs * 2 ^ (52 - ilog2 d.natAbs) := by
            rw [← pow_add]; congr 1; omega
        _ ≤ d.natAbs * 2 ^ (52 - ilog2 d.natAbs) := Nat.mul_le_mul_right _ ha
    have hA2 : d.natAbs * 2 ^ (52 - ilog2 d.natAbs) < 2 ^ (52 + 1) := by
      calc d.natAbs * 2 ^ (52 - ilog2 d.natAbs)
          < 2 ^ (ilog2 d.natAbs + 1) * 2 ^ (52 - ilog2 d.natAbs) :=
            Nat.mul_lt_mul_of_pos_right hb (by positivity)
        _ = 2 ^ (52 + 1) := by rw [← pow_add]; congr 1; omega
    have hlA : ilog2 (d.natAbs * 2 ^ (52 - ilog2 d.natAbs)) = 52 := ilog2_unique _ 52 hA1 hA2
    have hx := round53_nat d.natAbs h0 h
    have hq := round53_nat (d.natAbs * 2 ^ (52 - ilog2 d.natAbs)) (by omega) hA2
    rw [hlA] at hq
    have hq1 : round53 (d.natAbs * 2 ^ (52 - ilog2 d.natAbs)) 1 =
        (d.natAbs * 2 ^ (52 - ilog2 d.natAbs), 0) := by
      rw [hq]; simp
    have hmag : (if (0 : Int) ≤ 0 + ((ilog2 d.natAbs : Int) - 52) - (k : Int) then
          d.natAbs * 2 ^ (52 - ilog2 d.natAbs) *
            2 ^ (0 + ((ilog2 d.natAbs : Int) - 52) - (k : Int)).toNat
        else d.natAbs * 2 ^ (52 - ilog2 d.natAbs) /
            2 ^ (-(0 + ((ilog2 d.natAbs : Int) - 52) - (k : Int))).toNat) =
        d.natAbs / 2 ^ k := by
      split_ifs with hex
      · have hk : k = 0 := by omega
        have hl : ilog2 d.natAbs = 52 := by omega
        subst hk
        simp [hl]
      · have he : (-(0 + ((ilog2 d.natAbs : Int) - 52) - (k : Int))).toNat =
            k + (52 - ilog2 d.natAbs) := by omega
        rw [he, pow_add, Nat.mul_div_mul_right _ _ (by positivity)]
    have hdiv : d.natAbs / 2 ^ k < 2 ^ 63 :=
      lt_of_le_of_lt (Nat.div_le_self _ _) (lt_trans h (by norm_num))
    have hm : ¬ (1 = 0) := by decide
    simp only [scaleFloat, hm, hd, if_false, hx, hq1, hmag]
    show (if decide (d < 0) = false then
        (if d.natAbs / 2 ^ k < 2 ^ 63 then ((d.natAbs / 2 ^ k : Nat) : Int) else undef d)
      else (if d.natAbs / 2 ^ k ≤ 2 ^ 63 then -((d.natAbs / 2 ^ k : Nat) : Int) else undef d)) =
      d.tdiv (2 ^ k)
    have hp : ((2 : Int) ^ k) = ((2 ^ k : Nat) : Int) := by push_cast; rfl
    rcases Int.eq_nat_or_neg d with ⟨n, rfl | rfl⟩
    · have hneg : decide ((n : Int) < 0) = false := by
        rw [decide_eq_false_iff_not]; omega
      rw [if_pos hneg, if_pos hdiv, hp, Int.natAbs_ofNat, Int.ofNat_tdiv]
    · have hneg : ¬ (decide (-(n : Int) < 0) = false) := by
        rw [decide_eq_false_iff_not]; omega
      rw [if_neg hneg, if_pos (le_of_lt hdiv), hp, Int.natAbs_neg, Int.natAbs_ofNat,
        Int.neg_tdiv, Int.ofNat_tdiv]

/-- At a speed factor `2^(-k)` a difference below `2^53` in size is multiplied
exactly by `2^k`, as long as the product fits `int64`. -/
theorem scaleFloat_pow2_inv (k : Nat) (undef : Int → Int) (d : Int)
    (h : d.natAbs < 2 ^ 53) (hr : d.natAbs * 2 ^ k < 2 ^ 63) :
    scaleFloat (.finite false 1 (-(k : Int))) undef d = d * 2 ^ k := by
  by_cases hd : d = 0
  · subst hd; simp [scaleFloat]
  · have h0 : 1 ≤ d.natAbs := by omega
    obtain ⟨ha, hb⟩ := ilog2_spec d.natAbs h0
    have hla : ilog2 d.natAbs < 53 :=
      (Nat.pow_lt_pow_iff_right (by norm_num)).mp (lt_of_le_of_lt ha h)
    have hA1 : 2 ^ 52 ≤ d.natAbs * 2 ^ (52 - ilog2 d.natAbs) := by
      calc 2 ^ 52 = 2 ^ ilog2 d.natAbs * 2 ^ (52 - ilog2 d.natAbs) := by
            rw [← pow_add]; congr 1; omega
        _ ≤ d.natAbs * 2 ^ (52 - ilog2 d.natAbs) := Nat.mul_le_mul_right _ ha
    have hA2 : d.natAbs * 2 ^ (52 - ilog2 d.natAbs) < 2 ^ (52 + 1) := by
      calc d.natAbs * 2 ^ (52 - ilog2 d.natAbs)
          < 2 ^ (ilog2 d.natAbs + 1) * 2 ^ (52 - ilog2 d.natAbs) :=
            Nat.mul_lt_mul_of_pos_right hb (by positivity)
        _ = 2 ^ (52 + 1) := by rw [← pow_add]; congr 1; omega
    have hlA : ilog2 (d.natAbs * 2 ^ (52 - ilog2 d.natAbs)) = 52 := ilog2_unique _ 52 hA1 hA2
    have hx := round53_nat d.natAbs h0 h
    have hq := round53_nat (d.natAbs * 2 ^ (52 - ilog2 d.natAbs)) (by omega) hA2
    rw [hlA] at hq
    have hq1 : round53 (d.natAbs * 2 ^ (52 - ilog2 d.natAbs)) 1 =
        (d.natAbs * 2 ^ (52 - ilog2 d.natAbs), 0) := by
      rw [hq]; simp
    have hmag : (if (0 : Int) ≤ 0 + ((ilog2 d.natAbs : Int) - 52) - (-(k : Int)) then
          d.natAbs * 2 ^ (52 - ilog2 d.natAbs) *
            2 ^ (0 + ((ilog2 d.natAbs : Int) - 52) - (-(k : Int))).toNat
        else d.natAbs * 2 ^ (52 - ilog2 d.natAbs) /
            2 ^ (-(0 + ((ilog2 d.natAbs : Int) - 52) - (-(k : Int)))).toNat) =
        d.natAbs * 2 ^ k := by
      split_ifs with hex
      · rw [Nat.mul_assoc, ← pow_add]
        congr 2
        omega
      · have he : k + (-(0 + ((ilog2 d.natAbs : Int) - 52) - (-(k : Int)))).toNat =
            52 - ilog2 d.natAbs := by omega
        rw [← he, pow_add, ← Nat.mul_assoc, Nat.mul_div_cancel _ (by positivity)]
    have hm : ¬ (1 = 0) := by decide
    simp only [scaleFloat, hm, hd, if_false, hx, hq1, hmag]
    show (if decide (d < 0) = false then
        (if d.natAbs * 2 ^ k < 2 ^ 63 then ((d.natAbs * 2 ^ k : Nat) : Int) else undef d)
      else (if d.natAbs * 2 ^ k ≤ 2 ^ 63 then -((d.natAbs * 2 ^ k : Nat) : Int) else undef d)) =
      d * 2 ^ k
    rcases Int.eq_nat_or_neg d with ⟨n, rfl | rfl⟩
    · have hneg : decide ((n : Int) < 0) = false := by
        rw [decide_eq_false_iff_not]; omega
      rw [if_pos hneg, if_pos hr, Int.natAbs_ofNat]
      push_cast; rfl
    · have hneg : ¬ (decide (-(n : Int) < 0) = false) := by
        rw [decide_eq_false_iff_not]; omega
      rw [if_neg hneg, if_pos (le_of_lt hr), Int.natAbs_neg, Int.natAbs_ofNat]
      push_cast; ring

/-- The quotient of a full 53-bit mantissa by a positive integer below `2^53`:
the exponent is `-t` with `t` at least the position of the divisor's leading
bit. -/
theorem round53_by_int (a f : Nat) (ha1 : 2 ^ 52 ≤ a) (ha2 : a < 2 ^ (52 + 1))
    (hf1 : 1 ≤ f) (hf2 : f < 2 ^ 53) :
    ∃ t : Nat, ilog2 f ≤ t ∧
      round53 a f =
        (if f < 2 * (a * 2 ^ t % f) ∨ (f = 2 * (a * 2 ^ t % f) ∧ a * 2 ^ t / f % 2 = 1)
          then a * 2 ^ t / f + 1 else a * 2 ^ t / f, -(t : Int)) := by
  have hla : ilog2 a = 52 := ilog2_unique a 52 ha1 ha2
  obtain ⟨hfa, hfb⟩ := ilog2_spec f hf1
  have hlf : ilog2 f < 53 := (Nat.pow_lt_pow_iff_right (by norm_num)).mp (lt_of_le_of_lt hfa hf2)
  have e1 : (((52 : Nat) : Int) - (ilog2 f : Int)).toNat = 52 - ilog2 f := by omega
  have e2 : (-(((52 : Nat) : Int) - (ilog2 f : Int))).toNat = 0 := by omega
  by_cases hc : f * 2 ^ (52 - ilog2 f) ≤ a
  · refine ⟨ilog2 f, le_refl _, ?_⟩
    have e3 : (-(((52 : Nat) : Int) - (ilog2 f : Int) - 52)).toNat = ilog2 f := by omega
    have e4 : (((52 : Nat) : Int) - (ilog2 f : Int) - 52).toNat = 0 := by omega
    have e5 : ((52 : Nat) : Int) - (ilog2 f : Int) - 52 = -(ilog2 f : Int) := by omega
    simp only [round53, hla, e1, e2, pow_zero, mul_one]
    simp only [if_pos hc, e3, e4, pow_zero, mul_one]
    rw [e5]
  · refine ⟨ilog2 f + 1, Nat.le_succ _, ?_⟩
    have e3 : (-(((52 : Nat) : Int) - (ilog2 f : Int) - 1 - 52)).toNat = ilog2 f + 1 := by omega
    have e4 : (((52 : Nat) : Int) - (ilog2 f : Int) - 1 - 52).toNat = 0 := by omega
    have e5 : ((52 : Nat) : Int) - (ilog2 f : Int) - 1 - 52 = -((ilog2 f + 1 : Nat) : Int) := by
      push_cast; omega
    simp only [round53, hla, e1, e2, pow_zero, mul_one]
    simp only [if_neg hc, e3, e4, pow_zero, mul_one]
    rw [e5]

/-- Rounding the quotient up never reaches the next multiple of `2^(t+s)`, so the
integer part is that of the exact quotient. -/
theorem rounded_div_pow (a f t s : Nat) (hf1 : 1 ≤ f) (ht : ilog2 f ≤ t) :
    (if f < 2 * (a * 2 ^ s * 2 ^ t % f) ∨
          (f = 2 * (a * 2 ^ s * 2 ^ t % f) ∧ a * 2 ^ s * 2 ^ t / f % 2 = 1)
        then a * 2 ^ s * 2 ^ t / f + 1 else a * 2 ^ s * 2 ^ t / f) / 2 ^ (t + s) = a / f := by
  have hP : 0 < 2 ^ (t + s) := by positivity
  have hN : a * 2 ^ s * 2 ^ t = a * 2 ^ (t + s) := by
    rw [Nat.mul_assoc, ← pow_add, Nat.add_comm]
  have hbase : a * 2 ^ s * 2 ^ t / f / 2 ^ (t + s) = a / f := by
    rw [Nat.div_div_eq_div_mul, hN, Nat.mul_div_mul_right _ _ hP]
  split_ifs with hc
  · rw [Nat.succ_div, if_neg, Nat.add_zero, hbase]
    rintro ⟨n, hn⟩
    have hr : a * 2 ^ s * 2 ^ t % f < f := Nat.mod_lt _ (by omega)
    have h2r : f ≤ 2 * (a * 2 ^ s * 2 ^ t % f) := by
      rcases hc with h | h
      · omega
      · omega
    have hdm := Nat.div_add_mod (a * 2 ^ s * 2 ^ t) f
    rw [hN] at hdm hn hr h2r
    -- f * (m0 + 1) = f * (P * n)
    have h1 : f * (a * 2 ^ (t + s) / f) + f = 2 ^ (t + s) * (f * n) := by
      have := congrArg (fun z => f * z) hn
      simp only at this
      rw [Nat.mul_add, Nat.mul_one] at this
      rw [this]; ring
    have hdvd : 2 ^ (t + s) ∣ f - a * 2 ^ (t + s) % f := by
      have e : f - a * 2 ^ (t + s) % f = 2 ^ (t + s) * (f * n) - a * 2 ^ (t + s) := by
        generalize a * 2 ^ (t + s) % f = r at *
        generalize f * (a * 2 ^ (t + s) / f) = u at *
        generalize 2 ^ (t + s) * (f * n) = v at *
        generalize a * 2 ^ (t + s) = w at *
        omega
      rw [e]
      exact Nat.dvd_sub' (Dvd.intro _ rfl) (Dvd.intro_left _ rfl)
    have hle := Nat.le_of_dvd (by omega) hdvd
    obtain ⟨-, hfb⟩ := ilog2_spec f hf1
    have hpow : 2 ^ (ilog2 f + 1) ≤ 2 * 2 ^ (t + s) := by
      rw [pow_succ, Nat.mul_comm]
      exact Nat.mul_le_mul_left 2 (Nat.pow_le_pow_right (by norm_num) (by omega))
    omega
  · exact hbase

/-- At an integer speed factor `±f` below `2^53` in size, a difference below
`2^53` in size gives the exact quotient truncated toward zero. -/
theorem scaleFloat_int (neg : Bool) (f : Nat) (undef : Int → Int) (d : Int)
    (hf1 : 1 ≤ f) (hf2 : f < 2 ^ 53) (h : d.natAbs < 2 ^ 53) :
    scaleFloat (.finite neg f 0) undef d =
      if neg then -(d.tdiv (f : Int)) else d.tdiv (f : Int) := by
  have hf0 : ¬ f = 0 := by omega
  by_cases hd : d = 0
  · subst hd; cases neg <;> simp [scaleFloat, hf0]
  · have h0 : 1 ≤ d.natAbs := by omega
    obtain ⟨ha, hb⟩ := ilog2_spec d.natAbs h0
    have hla : ilog2 d.natAbs < 53 :=
      (Nat.pow_lt_pow_iff_right (by norm_num)).mp (lt_of_le_of_lt ha h)
    have hA1 : 2 ^ 52 ≤ d.natAbs * 2 ^ (52 - ilog2 d.natAbs) := by
      calc 2 ^ 52 = 2 ^ ilog2 d.natAbs * 2 ^ (52 - ilog2 d.natAbs) := by
            rw [← pow_add]; congr 1; omega
        _ ≤ d.natAbs * 2 ^ (52 - ilog2 d.natAbs) := Nat.mul_le_mul_right _ ha
    have hA2 : d.natAbs * 2 ^ (52 - ilog2 d.natAbs) < 2 ^ (52 + 1) := by
      calc d.natAbs * 2 ^ (52 - ilog2 d.natAbs)
          < 2 ^ (ilog2 d.natAbs + 1) * 2 ^ (52 - ilog2 d.natAbs) :=
            Nat.mul_lt_mul_of_pos_right hb (by positivity)
        _ = 2 ^ (52 + 1) := by rw [← pow_add]; congr 1; omega
    have hx := round53_nat d.natAbs h0 h
    obtain ⟨t, ht, hq⟩ := round53_by_int _ f hA1 hA2 hf1 hf2
    have hM := rounded_div_pow d.natAbs f t (52 - ilog2 d.natAbs) hf1 ht
    generalize hMdef : (if f < 2 * (d.natAbs * 2 ^ (52 - ilog2 d.natAbs) * 2 ^ t % f) ∨
          (f = 2 * (d.natAbs * 2 ^ (52 - ilog2 d.natAbs) * 2 ^ t % f) ∧
            d.natAbs * 2 ^ (52 - ilog2 d.natAbs) * 2 ^ t / f % 2 = 1)
        then d.natAbs * 2 ^ (52 - ilog2 d.natAbs) * 2 ^ t / f + 1
        else d.natAbs * 2 ^ (52 - ilog2 d.natAbs) * 2 ^ t / f) = M at hq hM
    have hmag : (if (0 : Int) ≤ -(t : Int) + ((ilog2 d.natAbs : Int) - 52) - 0 then
          M * 2 ^ (-(t : Int) + ((ilog2 d.natAbs : Int) - 52) - 0).toNat
        else M / 2 ^ (-(-(t : Int) + ((ilog2 d.natAbs : Int) - 52) - 0)).toNat) =
        d.natAbs / f := by
      rw [← hM]
      split_ifs with hex
      · have e1 : (-(t : Int) + ((ilog2 d.natAbs : Int) - 52) - 0).toNat = 0 := by omega
        have e2 : t + (52 - ilog2 d.natAbs) = 0 := by omega
        rw [e1, e2]; simp
      · have e1 : (-(-(t : Int) + ((ilog2 d.natAbs : Int) - 52) - 0)).toNat =
            t + (52 - ilog2 d.natAbs) := by omega
        rw [e1]
    have hdiv : d.natAbs / f < 2 ^ 63 :=
      lt_of_le_of_lt (Nat.div_le_self _ _) (lt_trans h (by norm_num))
    simp only [scaleFloat, hf0, hd, if_false, hx, hq, hmag]
    show (if decide (d < 0) = neg then
        (if d.natAbs / f < 2 ^ 63 then ((d.natAbs / f : Nat) : Int) else undef d)
      else (if d.natAbs / f ≤ 2 ^ 63 then -((d.natAbs / f : Nat) : Int) else undef d)) =
      if neg then -(d.tdiv (f : Int)) else d.tdiv (f : Int)
    rw [if_pos hdiv, if_pos (le_of_lt hdiv)]
    rcases Int.eq_nat_or_neg d with ⟨n, rfl | rfl⟩
    · have hneg : decide ((n : Int) < 0) = false := by
        rw [decide_eq_false_iff_not]; omega
      rw [hneg, Int.natAbs_ofNat, Int.ofNat_tdiv]
      cases neg <;> simp
    · have hneg : decide (-(n : Int) < 0) = true := by
        rw [decide_eq_true_iff]; omega
      rw [hneg, Int.natAbs_neg, Int.natAbs_ofNat, Int.neg_tdiv, Int.ofNat_tdiv]
      cases neg <;> simp

/-! ## Pacing between two request records -/

/-- Records that are not requests, each followed by the sentinel line: one send
each, no suspension, `lastTime` as it was. -/
theorem emitLoop_others (fmt : Format) (env : Nat → World) (cf : Option OsFile)
    (sf : SpeedFactor) (br : Bool) (t : Byte) (sentinel : List Byte)
    (hsep : fmt.payloadSeparator = t :: sentinel) (hsl : IsLine sentinel)
    (lt : Int) (n : Nat) (rest : List Byte) (k : Nat) :
    ∀ (mids : List (List (List Byte))),
      (∀ sec ∈ mids, (sec ≠ [] ∧ ∀ l ∈ sec, IsLine l ∧ l ≠ sentinel) ∧
        ((fmt.payloadMeta sec.flatten).length < 3 ∨
          ∃ tag f0 fs, fmt.payloadMeta sec.flatten = (tag :: f0) :: fs ∧
            tag ≠ fmt.RequestPayload)) →
      emitLoop fmt env (lineCount mids + k)
          ⟨⟨cf, some ⟨streamOf sentinel mids ++ rest, br⟩, sf⟩, lt, [], n⟩ =
        ((emitLoop fmt env k ⟨⟨cf, some ⟨rest, br⟩, sf⟩, lt, [], n⟩).1,
         mids.map (fun sec => Event.send sec.flatten.dropLast) ++
           (emitLoop fmt env k ⟨⟨cf, some ⟨rest, br⟩, sf⟩, lt, [], n⟩).2) := by
  intro mids
  induction mids with
  | nil => intro _; simp [lineCount, streamOf]
  | cons sec secs ih =>
    intro hm
    obtain ⟨⟨hne, hls⟩, hother⟩ := hm sec (List.mem_cons_self sec secs)
    have hflat : sec.flatten ≠ [] := flatten_lines_ne_nil sec hne (fun l hl => (hls l hl).1)
    have hk : lineCount (sec :: secs) + k = sec.length + ((lineCount secs + k) + 1) := by
      simp only [lineCount, List.map_cons, List.sum_cons]; omega
    have hst : streamOf sentinel (sec :: secs) ++ rest =
        sec.flatten ++ (sentinel ++ (streamOf sentinel secs ++ rest)) := by
      simp [streamOf, List.append_assoc]
    have e := emitLoop_record fmt env cf sf br t sentinel hsep hsl sec hls lt [] n
      (streamOf sentinel secs ++ rest) (lineCount secs + k) false
      (by simpa using hflat) (by simpa using isRequest_other fmt _ hother)
    simp only [List.nil_append, Bool.false_eq_true, if_false] at e
    rw [hk, hst, e, ih (fun s hs => hm s (List.mem_cons_of_mem sec hs))]
    simp

/-- C3: two consecutive request records in three runs. At speed factor `1.0`
with timestamps `0` and `5`, the second is sent with no suspension before it.
At speed factor `2.0` with timestamps `1` and `2^53 + 4`, the suspension is
`2^52 + 2`, while the difference `2^53 + 3` divided by `2` and truncated toward
zero is `2^52 + 1`. At the `float64` nearest `0.1`, the value
`7205759403792794 / 2^56`, with timestamps `1` and `4`, the suspension is `30`,
while `3` divided by that value and truncated toward zero is `29`. -/
theorem no_delay_after_timestamp_zero :
    (emit sampleFormat (fun _ => worldOf [(logA, ascii "1 a 0\nX\n#\n1 b 5\nY\n#\n")])
        (atFile logA (ascii "1 a 0\nX\n#\n1 b 5\nY\n#\n")) 7 =
      (Halt.finished, [Event.send (ascii "1 a 0\nX"), Event.send (ascii "1 b 5\nY")]) ∧
     (ParseInt (ascii "5")).1 - (ParseInt (ascii "0")).1 = 5) ∧
    (emit sampleFormat (fun _ => worldOf [(logA, [])])
        ⟨some ⟨logA, ⟨[], false⟩⟩,
          some ⟨ascii "1 a 1\n#\n1 b 9007199254740996\n#\n", false⟩, doubleSpeed⟩ 5 =
      (Halt.finished, [Event.send (ascii "1 a 1"), Event.sleep 4503599627370498,
        Event.send (ascii "1 b 9007199254740996")]) ∧
     Int.tdiv ((ParseInt (ascii "9007199254740996")).1 - (ParseInt (ascii "1")).1) 2 =
       4503599627370497) ∧
    (emit sampleFormat (fun _ => worldOf [(logA, [])])
        ⟨some ⟨logA, ⟨[], false⟩⟩, some ⟨ascii "1 a 1\n#\n1 b 4\n#\n", false⟩, tenthSpeed⟩ 5 =
      (Halt.finished, [Event.send (ascii "1 a 1"), Event.sleep 30,
        Event.send (ascii "1 b 4")]) ∧
     (3 * 2 ^ 56) / 7205759403792794 = 29 ∧
     29 * 7205759403792794 < 3 * 2 ^ 56 ∧ 3 * 2 ^ 56 < 30 * 7205759403792794) := by
  refine ⟨⟨by decide, by decide⟩, ⟨by decide, by decide⟩, ⟨by decide, by decide, by decide,
    by decide⟩⟩

/-- C3, amended: two consecutive request records (type tag the request marker,
at least three fields) with parsed timestamps `t0` then `t1`, with any records
that are not requests between them, under the `float64` speed factor `f`. When
`t0 ≠ 0`, `emit` suspends exactly once between the two sends, just before the
second: for `t1 - t0` wrapped to `int64` when `f` is `1.0`, and otherwise for
`int64(float64(d) / f)` of that wrapped difference `d`, as `float64` arithmetic
rounds it. When `t0 = 0` it does not suspend between them. The wrapped
difference is `t1 - t0` whenever that fits `int64`. For a difference below
`2^53` in size the rescaled duration is exact: `(t1 - t0) / m` truncated toward
zero at an integer factor `±m` below `2^53` (half the difference at `2.0`) and
at a factor `2^j`, and `(t1 - t0) * 2^j` at a factor `2^(-j)` when that fits
`int64`. -/
theorem emit_paces_requests (fmt : Format) (env : Nat → World) (cf : Option OsFile)
    (f : Float64) (undef : Int → Int) (br : Bool) (t : Byte) (sentinel : List Byte)
    (ls0 ls1 : List (List Byte)) (mids : List (List (List Byte)))
    (lt t0 t1 : Int) (n : Nat) (rest : List Byte) (k : Nat)
    (hsep : fmt.payloadSeparator = t :: sentinel) (hsl : IsLine sentinel)
    (hls0 : ∀ l ∈ ls0, IsLine l ∧ l ≠ sentinel) (hne0 : ls0.flatten ≠ [])
    (hls1 : ∀ l ∈ ls1, IsLine l ∧ l ≠ sentinel) (hne1 : ls1.flatten ≠ [])
    (hmids : ∀ sec ∈ mids, (sec ≠ [] ∧ ∀ l ∈ sec, IsLine l ∧ l ≠ sentinel) ∧
      ((fmt.payloadMeta sec.flatten).length < 3 ∨
        ∃ tag f0 fs, fmt.payloadMeta sec.flatten = (tag :: f0) :: fs ∧
          tag ≠ fmt.RequestPayload))
    (hreq0 : isRequest fmt (fmt.payloadMeta ls0.flatten) = some true)
    (ht0 : (ParseInt ((fmt.payloadMeta ls0.flatten).getD 2 [])).1 = t0)
    (hreq1 : isRequest fmt (fmt.payloadMeta ls1.flatten) = some true)
    (ht1 : (ParseInt ((fmt.payloadMeta ls1.flatten).getD 2 [])).1 = t1) :
    emitLoop fmt env (ls0.length + ((lineCount mids + (ls1.length + (k + 1))) + 1))
        ⟨⟨cf, some ⟨ls0.flatten ++ (sentinel ++ (streamOf sentinel mids ++
            (ls1.flatten ++ (sentinel ++ rest)))), br⟩, SpeedFactor.ofFloat f undef⟩,
          lt, [], n⟩ =
      ((emitLoop fmt env k
          ⟨⟨cf, some ⟨rest, br⟩, SpeedFactor.ofFloat f undef⟩, t1, [], n⟩).1,
       (pace (SpeedFactor.ofFloat f undef) lt (fmt.payloadMeta ls0.flatten)).1 ++
         [Event.send ls0.flatten.dropLast] ++
       (mids.map (fun sec => Event.send sec.flatten.dropLast) ++
        ((if t0 ≠ 0 then
            [Event.sleep (if f.isOne then wrap64 (t1 - t0)
              else scaleFloat f undef (wrap64 (t1 - t0)))]
          else []) ++ [Event.send ls1.flatten.dropLast] ++
        (emitLoop fmt env k
          ⟨⟨cf, some ⟨rest, br⟩, SpeedFactor.ofFloat f undef⟩, t1, [], n⟩).2))) ∧
    (-(2 ^ 63) ≤ t1 - t0 → t1 - t0 < 2 ^ 63 → wrap64 (t1 - t0) = t1 - t0) ∧
    (∀ (neg : Bool) (m : Nat), f = .finite neg m 0 → 1 ≤ m → m < 2 ^ 53 →
      (t1 - t0).natAbs < 2 ^ 53 →
      scaleFloat f undef (wrap64 (t1 - t0)) =
        if neg then -((t1 - t0).tdiv (m : Int)) else (t1 - t0).tdiv (m : Int)) ∧
    (∀ j : Nat, f = .finite false 1 (-(j : Int)) → (t1 - t0).natAbs < 2 ^ 53 →
      (t1 - t0).natAbs * 2 ^ j < 2 ^ 63 →
      scaleFloat f undef (wrap64 (t1 - t0)) = (t1 - t0) * 2 ^ j) ∧
    (∀ j : Nat, f = .finite false 1 (j : Int) → (t1 - t0).natAbs < 2 ^ 53 →
      scaleFloat f undef (wrap64 (t1 - t0)) = (t1 - t0).tdiv (2 ^ j)) := by
  have hw : (t1 - t0).natAbs < 2 ^ 53 → wrap64 (t1 - t0) = t1 - t0 := by
    intro h
    exact wrap64_of_range _ (by omega) (by omega)
  refine ⟨?_, wrap64_of_range (t1 - t0), ?_, ?_, ?_⟩
  · have e0 := emitLoop_record fmt env cf (SpeedFactor.ofFloat f undef) br t sentinel hsep hsl
      ls0 hls0 lt [] n (streamOf sentinel mids ++ (ls1.flatten ++ (sentinel ++ rest)))
      (lineCount mids + (ls1.length + (k + 1))) true (by simpa using hne0)
      (by simpa using hreq0)
    have em := emitLoop_others fmt env cf (SpeedFactor.ofFloat f undef) br t sentinel hsep hsl
      t0 n (ls1.flatten ++ (sentinel ++ rest)) (ls1.length + (k + 1)) mids hmids
    have e1 := emitLoop_record fmt env cf (SpeedFactor.ofFloat f undef) br t sentinel hsep hsl
      ls1 hls1 t0 [] n rest k true (by simpa using hne1) (by simpa using hreq1)
    simp only [List.nil_append, if_true] at e0 e1
    have hp0 : (pace (SpeedFactor.ofFloat f undef) lt (fmt.payloadMeta ls0.flatten)).2 = t0 := by
      simp only [pace, ht0]
    have hp1 := pace_eq (SpeedFactor.ofFloat f undef) t0 t1 _ ht1
    rw [e0, hp0, em, e1, hp1]
    rfl
  · intro neg m hf hm1 hm2 hd
    rw [hf, hw hd]
    exact scaleFloat_int neg m undef (t1 - t0) hm1 hm2 hd
  · intro j hf hd hr
    rw [hf, hw hd]
    exact scaleFloat_pow2_inv j undef (t1 - t0) hd hr
  · intro j hf hd
    rw [hf, hw hd]
    exact scaleFloat_pow2 j undef (t1 - t0) hd

theorem emit_paces_requests_witness :
    emitLoop sampleFormat (fun _ => worldOf [])
        (1 + ((lineCount [[ascii "2 x\n"]] + (1 + (0 + 1))) + 1))
        ⟨⟨none, some ⟨[ascii "1 a 10\n"].flatten ++ (ascii "#\n" ++
          (streamOf (ascii "#\n") [[ascii "2 x\n"]] ++
            ([ascii "1 b 25\n"].flatten ++ (ascii "#\n" ++ [])))), false⟩,
          SpeedFactor.ofFloat (.finite false 2 0) (fun _ => 0)⟩, 0, [], 0⟩ =
      (Halt.outOfFuel, [Event.send (ascii "1 a 10"), Event.send (ascii "2 x"),
        Event.sleep 7, Event.send (ascii "1 b 25")]) :=
  (emit_paces_requests sampleFormat (fun _ => worldOf []) none (.finite false 2 0)
    (fun _ => 0) false 10 (ascii "#\n") [ascii "1 a 10\n"] [ascii "1 b 25\n"]
    [[ascii "2 x\n"]] 0 10 25 0 [] 0 (by decide) (by decide) (by decide)
    (by decide) (by decide) (by decide)
    (by
      intro sec hsec
      simp only [List.mem_singleton] at hsec
      subst hsec
      exact ⟨by decide, Or.inl (by decide)⟩)
    (by decide) (by decide) (by decide) (by decide)).1.trans (by decide)

end GoReplay
